import Mathlib

/-!
Verification of the Huffman core of the zarc repository (src/c/huffman.c).

The C source is shallowly embedded: each C function is translated to an
executable Lean definition over `ℕ` and `List`, with `% 2 ^ w` inserted at
the points where the C performs fixed-width machine arithmetic whose
wrap-around is reachable.  Buffers are lists, out-parameters become
returned tuples, and fallible functions return `Option`.
-/

namespace Zarc

/-! ## bit_reverse (src/c/huffman.c lines 33-40)

`result` and `value` are `uint16_t`; the update
`result = (result << 1) | (value & 1)` is computed in `int` and truncated
back to 16 bits on assignment, hence the `% 65536`. -/

/-- Loop body of `bit_reverse`: one iteration per bit, LSB first. -/
def bitReverseAux (value result : ℕ) : ℕ → ℕ
  | 0 => result
  | n + 1 => bitReverseAux (value >>> 1) ((result <<< 1 ||| value &&& 1) % 65536) n

/-- `bit_reverse(value, bits)` from huffman.c. -/
def bit_reverse (value bits : ℕ) : ℕ :=
  bitReverseAux value 0 bits

/-- Mathematical bit reversal of the low `n` bits of `v`, used to reason
about `bit_reverse`. -/
def revBits : ℕ → ℕ → ℕ
  | _, 0 => 0
  | v, n + 1 => v % 2 * 2 ^ n + revBits (v / 2) n

theorem revBits_lt (n : ℕ) : ∀ v, revBits v n < 2 ^ n := by
  induction n with
  | zero => intro v; simp [revBits]
  | succ n ih =>
    intro v
    have h := ih (v / 2)
    have hm : v % 2 ≤ 1 := by omega
    have hmul : v % 2 * 2 ^ n ≤ 1 * 2 ^ n := Nat.mul_le_mul_right _ hm
    have hpow : 2 ^ (n + 1) = 2 ^ n + 2 ^ n := by ring
    simp only [revBits]
    omega

theorem revBits_mod (n : ℕ) : ∀ v, revBits (v % 2 ^ n) n = revBits v n := by
  induction n with
  | zero => intro v; rfl
  | succ n ih =>
    intro v
    have h1 : v % 2 ^ (n + 1) % 2 = v % 2 := by
      have : (2 : ℕ) ∣ 2 ^ (n + 1) := dvd_pow_self 2 (Nat.succ_ne_zero n)
      exact Nat.mod_mod_of_dvd v this
    have h2 : v % 2 ^ (n + 1) / 2 = v / 2 % 2 ^ n := by
      rw [pow_succ, mul_comm]
      exact Nat.mod_mul_right_div_self v 2 (2 ^ n)
    simp only [revBits, h1, h2, ih]

theorem revBits_succ_hi (n : ℕ) : ∀ v, revBits v (n + 1) = 2 * revBits v n + v / 2 ^ n % 2 := by
  induction n with
  | zero => intro v; simp [revBits]
  | succ n ih =>
    intro v
    have hdiv : v / 2 / 2 ^ n = v / 2 ^ (n + 1) := by
      rw [Nat.div_div_eq_div_mul, pow_succ, mul_comm]
    calc revBits v (n + 2)
        = v % 2 * 2 ^ (n + 1) + revBits (v / 2) (n + 1) := rfl
      _ = v % 2 * 2 ^ (n + 1) + (2 * revBits (v / 2) n + v / 2 / 2 ^ n % 2) := by rw [ih]
      _ = 2 * (v % 2 * 2 ^ n + revBits (v / 2) n) + v / 2 ^ (n + 1) % 2 := by
          rw [hdiv]; ring_nf
      _ = 2 * revBits v (n + 1) + v / 2 ^ (n + 1) % 2 := rfl

theorem revBits_revBits {n v : ℕ} (hv : v < 2 ^ n) : revBits (revBits v n) n = v := by
  induction n generalizing v with
  | zero => interval_cases v; rfl
  | succ n ih =>
    have hv2 : v / 2 < 2 ^ n := by
      rw [Nat.div_lt_iff_lt_mul (by norm_num)]
      calc v < 2 ^ (n + 1) := hv
        _ = 2 ^ n * 2 := by ring
    have hw : revBits (v / 2) n < 2 ^ n := revBits_lt n (v / 2)
    have hstep : revBits v (n + 1) = v % 2 * 2 ^ n + revBits (v / 2) n := rfl
    rw [hstep, revBits_succ_hi]
    have hmod : (v % 2 * 2 ^ n + revBits (v / 2) n) % 2 ^ n = revBits (v / 2) n % 2 ^ n :=
      by rw [mul_comm]; exact Nat.mul_add_mod _ _ _
    have hdep : revBits (v % 2 * 2 ^ n + revBits (v / 2) n) n = v / 2 := by
      rw [← revBits_mod n, hmod, Nat.mod_eq_of_lt hw]
      exact ih hv2
    have hhi : (v % 2 * 2 ^ n + revBits (v / 2) n) / 2 ^ n % 2 = v % 2 := by
      rw [add_comm, Nat.add_mul_div_right _ _ (by positivity : 0 < 2 ^ n),
        Nat.div_eq_of_lt hw]
      omega
    rw [hdep, hhi]
    omega

theorem two_mul_lor_one (r : ℕ) : 2 * r ||| 1 = 2 * r + 1 := by
  have h := Nat.lor_bit false r true 0
  simpa [Nat.bit] using h

theorem bitReverseAux_eq :
    ∀ n k value r, r < 2 ^ k → n + k ≤ 16 →
      bitReverseAux value r n = r * 2 ^ n + revBits value n := by
  intro n
  induction n with
  | zero => intro k value r _ _; simp [bitReverseAux, revBits]
  | succ n ih =>
    intro k value r hr hk
    have hsh : r <<< 1 = 2 * r := by rw [Nat.shiftLeft_eq]; ring
    have hand : value &&& 1 = value % 2 := Nat.and_one_is_mod value
    have hlor : 2 * r ||| value % 2 = 2 * r + value % 2 := by
      rcases Nat.mod_two_eq_zero_or_one value with h | h <;> rw [h]
      · simp
      · exact two_mul_lor_one r
    have hrbound : 2 * r + value % 2 < 2 ^ (k + 1) := by
      have : value % 2 ≤ 1 := by omega
      have h2 : 2 * r + 2 ≤ 2 * 2 ^ k := by omega
      have : 2 * 2 ^ k = 2 ^ (k + 1) := by ring
      omega
    have hsmall : 2 * r + value % 2 < 65536 := by
      have h16 : 2 ^ (k + 1) ≤ 2 ^ 16 := Nat.pow_le_pow_right (by norm_num) (by omega)
      calc 2 * r + value % 2 < 2 ^ (k + 1) := hrbound
        _ ≤ 2 ^ 16 := h16
        _ = 65536 := by norm_num
    have hstep : bitReverseAux value r (n + 1)
        = bitReverseAux (value >>> 1) ((2 * r + value % 2) % 65536) n := by
      simp only [bitReverseAux, hsh, hand, hlor]
    rw [hstep, Nat.mod_eq_of_lt hsmall, ih (k + 1) (value >>> 1) _ hrbound (by omega),
      Nat.shiftRight_one]
    simp only [revBits]
    ring

theorem bit_reverse_eq_revBits (value bits : ℕ) (h : bits ≤ 16) :
    bit_reverse value bits = revBits value bits := by
  have := bitReverseAux_eq bits 0 value 0 (by norm_num) (by omega)
  simpa [bit_reverse] using this

/-- C8: for every `n` in 1..=15 and every value representable in `n` bits,
applying `bit_reverse` with width `n` twice returns the original value. -/
theorem c8_bit_reverse_involution (n v : ℕ) (h1 : 1 ≤ n) (h2 : n ≤ 15) (hv : v < 2 ^ n) :
    bit_reverse (bit_reverse v n) n = v := by
  rw [bit_reverse_eq_revBits _ _ (by omega), bit_reverse_eq_revBits _ _ (by omega)]
  exact revBits_revBits hv

/-- Witness for C8 at `n = 4`, `v = 11`. -/
theorem c8_witness :
    1 ≤ 4 ∧ 4 ≤ 15 ∧ 11 < 2 ^ 4 ∧ bit_reverse (bit_reverse 11 4) 4 = 11 :=
  ⟨by decide, by decide, by decide, c8_bit_reverse_involution 4 11 (by decide) (by decide) (by decide)⟩

/-! ## BitWriter (src/c/huffman.c lines 277-314)

The destination buffer is the list `bytes` (its length is the C `pos`
cursor); `size` is the buffer capacity.  `bit_buffer` is a `uint32_t`,
hence the `% 2 ^ 32` on the accumulation step. -/

/-- State of the C `BitWriter` struct. -/
structure BitWriter where
  size : ℕ
  bytes : List ℕ
  bit_buffer : ℕ
  bit_count : ℕ
deriving DecidableEq, Repr

/-- `bit_writer_init`: empty buffer, zero accumulator. -/
def bit_writer_init (size : ℕ) : BitWriter :=
  ⟨size, [], 0, 0⟩

/-- The `while (bw->bit_count >= 8)` flush loop of `bit_writer_write`;
`none` models the `return -1` buffer-overflow exit.  The loop consumes
8 pending bits per iteration, so any fuel with `bit_count ≤ 8 * fuel + 7`
makes the fuel bound unreachable; callers pass `bit_count` itself. -/
def bitWriterFlushAux : ℕ → BitWriter → Option BitWriter
  | 0, bw => if 8 ≤ bw.bit_count then none else some bw
  | fuel + 1, bw =>
    if 8 ≤ bw.bit_count then
      if bw.size ≤ bw.bytes.length then none
      else bitWriterFlushAux fuel
        ⟨bw.size, bw.bytes ++ [bw.bit_buffer % 256], bw.bit_buffer >>> 8, bw.bit_count - 8⟩
    else some bw

/-- `bit_writer_write(bw, value, bits)` from huffman.c. -/
def bit_writer_write (bw : BitWriter) (value bits : ℕ) : Option BitWriter :=
  bitWriterFlushAux (bw.bit_count + bits)
    ⟨bw.size, bw.bytes, (bw.bit_buffer ||| value <<< bw.bit_count) % 2 ^ 32,
      bw.bit_count + bits⟩

/-- `bit_writer_finish`: flush the trailing partial byte if there is one
and it still fits; otherwise do nothing (this silent drop is the C
behaviour). -/
def bit_writer_finish (bw : BitWriter) : BitWriter :=
  if 0 < bw.bit_count ∧ bw.bytes.length < bw.size then
    ⟨bw.size, bw.bytes ++ [bw.bit_buffer % 256], bw.bit_buffer, bw.bit_count⟩
  else bw

/-- The BitWriter invariant: at most 7 pending bits, and the accumulator
holds nothing above its `bit_count` low bits. -/
def BitWriterInv (bw : BitWriter) : Prop :=
  bw.bit_count ≤ 7 ∧ bw.bit_buffer < 2 ^ bw.bit_count

theorem bitWriterFlushAux_spec :
    ∀ fuel (bw : BitWriter), bw.bit_count ≤ 8 * fuel + 7 →
      bw.bit_buffer < 2 ^ bw.bit_count →
      ∀ bw', bitWriterFlushAux fuel bw = some bw' →
        BitWriterInv bw' ∧
        8 * bw'.bytes.length + bw'.bit_count = 8 * bw.bytes.length + bw.bit_count ∧
        bw'.size = bw.size := by
  intro fuel
  induction fuel with
  | zero =>
    intro bw hf hbuf bw' h
    simp only [bitWriterFlushAux] at h
    by_cases h8 : 8 ≤ bw.bit_count
    · rw [if_pos h8] at h; exact absurd h (by simp)
    · rw [if_neg h8] at h
      have : bw = bw' := by simpa using h
      subst this
      exact ⟨⟨by omega, hbuf⟩, rfl, rfl⟩
  | succ fuel ih =>
    intro bw hf hbuf bw' h
    simp only [bitWriterFlushAux] at h
    by_cases h8 : 8 ≤ bw.bit_count
    · rw [if_pos h8] at h
      by_cases hcap : bw.size ≤ bw.bytes.length
      · rw [if_pos hcap] at h; exact absurd h (by simp)
      · rw [if_neg hcap] at h
        have hshift : bw.bit_buffer >>> 8 < 2 ^ (bw.bit_count - 8) := by
          rw [Nat.shiftRight_eq_div_pow]
          have hb : bw.bit_buffer < 2 ^ 8 * 2 ^ (bw.bit_count - 8) := by
            rw [← pow_add]
            have h88 : 8 + (bw.bit_count - 8) = bw.bit_count := by omega
            rw [h88]; exact hbuf
          exact Nat.div_lt_of_lt_mul hb
        have := ih _ (by simp only; omega) hshift bw' h
        refine ⟨this.1, ?_, this.2.2⟩
        have hlen := this.2.1
        simp only [List.length_append, List.length_cons, List.length_nil] at hlen ⊢
        omega
    · rw [if_neg h8] at h
      have : bw = bw' := by simpa using h
      subst this
      exact ⟨⟨by omega, hbuf⟩, rfl, rfl⟩

/-- C9 (implicit BitWriter invariant): `bit_writer_init` establishes the
invariant, and every successful `bit_writer_write` whose value fits in
`bits` bits preserves it; moreover all completed bytes are flushed into
the buffer before the call returns (bit conservation). -/
theorem c9_bit_writer_invariant :
    (∀ size, BitWriterInv (bit_writer_init size)) ∧
    (∀ (bw : BitWriter) value bits bw',
      BitWriterInv bw → value < 2 ^ bits → bits ≤ 25 →
      bit_writer_write bw value bits = some bw' →
      BitWriterInv bw' ∧
      8 * bw'.bytes.length + bw'.bit_count = 8 * bw.bytes.length + bw.bit_count + bits ∧
      bw'.size = bw.size) := by
  constructor
  · intro size
    exact ⟨by norm_num [bit_writer_init], by norm_num [bit_writer_init]⟩
  · intro bw value bits bw' hinv hval hbits h
    obtain ⟨hc7, hbb⟩ := hinv
    have hor : (bw.bit_buffer ||| value <<< bw.bit_count) < 2 ^ (bw.bit_count + bits) := by
      rw [Nat.lor_comm]
      exact Nat.append_lt hbb hval
    have hlt32 : (bw.bit_buffer ||| value <<< bw.bit_count) < 2 ^ 32 :=
      lt_of_lt_of_le hor (Nat.pow_le_pow_right (by norm_num) (by omega))
    have hmod : (bw.bit_buffer ||| value <<< bw.bit_count) % 2 ^ 32
        = bw.bit_buffer ||| value <<< bw.bit_count := Nat.mod_eq_of_lt hlt32
    unfold bit_writer_write at h
    rw [hmod] at h
    have := bitWriterFlushAux_spec (bw.bit_count + bits) _ (by simp only; omega) hor bw' h
    exact ⟨this.1, by have hl := this.2.1; simp only at hl ⊢; omega, this.2.2⟩

/-- Witness for C9: a concrete successful write preserving the invariant. -/
theorem c9_witness :
    BitWriterInv (bit_writer_init 2) ∧
    (5 : ℕ) < 2 ^ 3 ∧ (3 : ℕ) ≤ 25 ∧
    bit_writer_write (bit_writer_init 2) 5 3 = some ⟨2, [], 5, 3⟩ ∧
    (BitWriterInv ⟨2, [], 5, 3⟩ ∧
      8 * ([] : List ℕ).length + 3 = 8 * ([] : List ℕ).length + 0 + 3 ∧
      (2 : ℕ) = 2) := by
  refine ⟨⟨by decide, by decide⟩, by decide, by decide, by decide, ?_⟩
  exact c9_bit_writer_invariant.2 (bit_writer_init 2) 5 3 ⟨2, [], 5, 3⟩
    ⟨by decide, by decide⟩ (by decide) (by decide) (by decide)

/-! ## rle_encode_lengths (src/c/huffman.c lines 317-399)

The output `(symbols[i], extra[i])` pairs become a list of pairs.  The
three inner `while` loops are embedded with fuel; every iteration
consumes at least one unit of the remaining count, so fuel equal to the
initial count is sufficient and the fuel-exhaustion branches are dead. -/

/-- Number of consecutive entries equal to `v` at the head of the list
(the C `while (lengths[i + count] == ...) count++` scans). -/
def countEq (v : ℕ) : List ℕ → ℕ
  | [] => 0
  | x :: rest => if x = v then 1 + countEq v rest else 0

/-- The `while (count > 0)` zero-run loop: codes 18, 17 or literal 0. -/
def rleEncodeZerosAux : ℕ → ℕ → List (ℕ × ℕ)
  | 0, _ => []
  | fuel + 1, count =>
    if count = 0 then []
    else if 11 ≤ count then
      (18, min count 138 - 11) :: rleEncodeZerosAux fuel (count - min count 138)
    else if 3 ≤ count then
      (17, min count 10 - 3) :: rleEncodeZerosAux fuel (count - min count 10)
    else
      (0, 0) :: rleEncodeZerosAux fuel (count - 1)

/-- Zero-run encoding with sufficient fuel. -/
def rleEncodeZeros (count : ℕ) : List (ℕ × ℕ) :=
  rleEncodeZerosAux count count

/-- The `while (count >= 3)` repeat loop (code 16) followed by the
trailing literal emissions. -/
def rleEncodeRepsAux : ℕ → ℕ → ℕ → List (ℕ × ℕ)
  | 0, _, _ => []
  | fuel + 1, len, count =>
    if 3 ≤ count then
      (16, min count 6 - 3) :: rleEncodeRepsAux fuel len (count - min count 6)
    else
      List.replicate count (len, 0)

/-- Repeat encoding with sufficient fuel. -/
def rleEncodeReps (len count : ℕ) : List (ℕ × ℕ) :=
  rleEncodeRepsAux count len count

/-- Outer loop of `rle_encode_lengths`; each iteration consumes at least
the head element, so fuel equal to the list length is sufficient. -/
def rleEncodeAux : ℕ → List ℕ → List (ℕ × ℕ)
  | 0, _ => []
  | _ + 1, [] => []
  | fuel + 1, len :: rest =>
    if len = 0 then
      let zeros := countEq 0 rest
      rleEncodeZeros (1 + zeros) ++ rleEncodeAux fuel (rest.drop zeros)
    else
      let reps := countEq len rest
      (len, 0) :: (rleEncodeReps len reps ++ rleEncodeAux fuel (rest.drop reps))

/-- `rle_encode_lengths(lengths)` from huffman.c. -/
def rle_encode_lengths (lengths : List ℕ) : List (ℕ × ℕ) :=
  rleEncodeAux lengths.length lengths

/-- Modelled from the spec: the decoder for the code-length alphabet
that 4.3 must be reversible against (the repository implements no
decoder).  Symbols 0-15 are literal lengths, 16 repeats the previous
length `3 + extra` times, 17 emits `3 + extra` zeros, 18 emits
`11 + extra` zeros. -/
def rle_decode (prev : ℕ) : List (ℕ × ℕ) → List ℕ
  | [] => []
  | (s, e) :: rest =>
    if s ≤ 15 then s :: rle_decode s rest
    else if s = 16 then List.replicate (3 + e) prev ++ rle_decode prev rest
    else if s = 17 then List.replicate (3 + e) 0 ++ rle_decode 0 rest
    else List.replicate (11 + e) 0 ++ rle_decode 0 rest

theorem countEq_le (v : ℕ) : ∀ l : List ℕ, countEq v l ≤ l.length := by
  intro l
  induction l with
  | nil => simp [countEq]
  | cons x rest ih =>
    simp only [countEq, List.length_cons]
    split <;> omega

theorem replicate_countEq_append (v : ℕ) :
    ∀ l : List ℕ, List.replicate (countEq v l) v ++ l.drop (countEq v l) = l := by
  intro l
  induction l with
  | nil => simp [countEq]
  | cons x rest ih =>
    by_cases h : x = v
    · simp only [countEq, if_pos h, Nat.add_comm 1 (countEq v rest), List.replicate_succ,
        List.drop_succ_cons, List.cons_append]
      rw [h, ih]
    · simp [countEq, if_neg h]

theorem rle_decode_zeros_append (tail : List (ℕ × ℕ)) :
    ∀ fuel count p, 1 ≤ count → count ≤ fuel →
      rle_decode p (rleEncodeZerosAux fuel count ++ tail)
        = List.replicate count 0 ++ rle_decode 0 tail := by
  intro fuel
  induction fuel with
  | zero => intro count p h1 h2; omega
  | succ fuel ih =>
    intro count p h1 h2
    by_cases h11 : 11 ≤ count
    · have hn : min count 138 ≥ 11 := le_min h11 (by norm_num)
      simp only [rleEncodeZerosAux, if_neg (by omega : ¬count = 0), if_pos h11,
        List.cons_append]
      have hs : rle_decode p ((18, min count 138 - 11) ::
          (rleEncodeZerosAux fuel (count - min count 138) ++ tail))
          = List.replicate (11 + (min count 138 - 11)) 0 ++
            rle_decode 0 (rleEncodeZerosAux fuel (count - min count 138) ++ tail) := by
        simp [rle_decode]
      rw [hs]
      by_cases hrest : count - min count 138 = 0
      · have hmin : min count 138 = count := by omega
        rw [hrest, hmin]
        have : rleEncodeZerosAux fuel 0 = [] := by cases fuel <;> simp [rleEncodeZerosAux]
        rw [this]
        simp only [List.nil_append]
        have : 11 + (count - 11) = count := by omega
        rw [this]
      · rw [ih _ 0 (by omega) (by omega)]
        rw [← List.append_assoc, ← List.replicate_add]
        have : 11 + (min count 138 - 11) + (count - min count 138) = count := by
          have := min_le_left count 138
          omega
        rw [this]
    · by_cases h3 : 3 ≤ count
      · have hmin : min count 10 = count := by omega
        simp only [rleEncodeZerosAux, if_neg (by omega : ¬count = 0), if_neg h11,
          if_pos h3, hmin, Nat.sub_self, List.cons_append]
        have : rleEncodeZerosAux fuel 0 = [] := by cases fuel <;> simp [rleEncodeZerosAux]
        rw [this]
        simp only [List.nil_append]
        have hdec : rle_decode p ((17, count - 3) :: tail)
            = List.replicate (3 + (count - 3)) 0 ++ rle_decode 0 tail := by
          simp [rle_decode]
        rw [hdec]
        have : 3 + (count - 3) = count := by omega
        rw [this]
      · simp only [rleEncodeZerosAux, if_neg (by omega : ¬count = 0), if_neg h11,
          if_neg h3, List.cons_append]
        have hdec : rle_decode p ((0, 0) :: (rleEncodeZerosAux fuel (count - 1) ++ tail))
            = 0 :: rle_decode 0 (rleEncodeZerosAux fuel (count - 1) ++ tail) := by
          simp [rle_decode]
        rw [hdec]
        by_cases hone : count = 1
        · subst hone
          have : rleEncodeZerosAux fuel 0 = [] := by cases fuel <;> simp [rleEncodeZerosAux]
          simp [this]
        · rw [ih _ 0 (by omega) (by omega)]
          have : count = 1 + (count - 1) := by omega
          rw [this, List.replicate_add]
          simp

theorem rle_decode_reps_append (tail : List (ℕ × ℕ)) :
    ∀ fuel count len, len ≤ 15 → count ≤ fuel →
      rle_decode len (rleEncodeRepsAux fuel len count ++ tail)
        = List.replicate count len ++ rle_decode len tail := by
  intro fuel
  induction fuel with
  | zero =>
    intro count len h15 h2
    have : count = 0 := by omega
    subst this
    simp [rleEncodeRepsAux]
  | succ fuel ih =>
    intro count len h15 h2
    by_cases h3 : 3 ≤ count
    · simp only [rleEncodeRepsAux, if_pos h3, List.cons_append]
      have hdec : rle_decode len ((16, min count 6 - 3) ::
          (rleEncodeRepsAux fuel len (count - min count 6) ++ tail))
          = List.replicate (3 + (min count 6 - 3)) len ++
            rle_decode len (rleEncodeRepsAux fuel len (count - min count 6) ++ tail) := by
        simp [rle_decode]
      rw [hdec, ih _ len h15 (by omega)]
      rw [← List.append_assoc, ← List.replicate_add]
      have hmin : 3 ≤ min count 6 := le_min h3 (by norm_num)
      have : 3 + (min count 6 - 3) + (count - min count 6) = count := by
        have := min_le_left count 6
        omega
      rw [this]
    · simp only [rleEncodeRepsAux, if_neg h3]
      interval_cases count
      · simp
      · simp [rle_decode, if_pos h15]
      · simp [rle_decode, if_pos h15]

theorem rle_decode_encodeAux :
    ∀ fuel (l : List ℕ), l.length ≤ fuel → (∀ x ∈ l, x ≤ 15) →
      ∀ p, rle_decode p (rleEncodeAux fuel l) = l := by
  intro fuel
  induction fuel with
  | zero =>
    intro l hlen _ p
    have : l = [] := List.eq_nil_of_length_eq_zero (by omega)
    subst this
    rfl
  | succ fuel ih =>
    intro l hlen hbound p
    match l with
    | [] => rfl
    | len :: rest =>
      by_cases h0 : len = 0
      · subst h0
        simp only [rleEncodeAux, eq_self_iff_true, if_true]
        have hz := rle_decode_zeros_append (rleEncodeAux fuel (rest.drop (countEq 0 rest)))
          (1 + countEq 0 rest) (1 + countEq 0 rest) p (by omega) (le_refl _)
        rw [show rleEncodeZeros (1 + countEq 0 rest)
            = rleEncodeZerosAux (1 + countEq 0 rest) (1 + countEq 0 rest) from rfl, hz]
        have hdrop : (rest.drop (countEq 0 rest)).length ≤ fuel := by
          have h1 := countEq_le 0 rest
          simp only [List.length_drop, List.length_cons] at *
          omega
        have hsub : ∀ x ∈ rest.drop (countEq 0 rest), x ≤ 15 := by
          intro x hx
          exact hbound x (List.mem_cons_of_mem _ (List.mem_of_mem_drop hx))
        rw [ih _ hdrop hsub 0]
        have := replicate_countEq_append 0 rest
        calc List.replicate (1 + countEq 0 rest) 0 ++ rest.drop (countEq 0 rest)
            = 0 :: (List.replicate (countEq 0 rest) 0 ++ rest.drop (countEq 0 rest)) := by
              rw [List.replicate_add, List.replicate_one]; rfl
          _ = 0 :: rest := by rw [this]
      · simp only [rleEncodeAux, if_neg h0]
        have hlen15 : len ≤ 15 := hbound len (List.mem_cons_self _ _)
        have hdec1 : rle_decode p ((len, 0) :: (rleEncodeReps len (countEq len rest) ++
            rleEncodeAux fuel (rest.drop (countEq len rest))))
            = len :: rle_decode len (rleEncodeReps len (countEq len rest) ++
              rleEncodeAux fuel (rest.drop (countEq len rest))) := by
          simp [rle_decode, if_pos hlen15]
        rw [hdec1]
        have hr := rle_decode_reps_append (rleEncodeAux fuel (rest.drop (countEq len rest)))
          (countEq len rest) (countEq len rest) len hlen15 (le_refl _)
        rw [show rleEncodeReps len (countEq len rest)
            = rleEncodeRepsAux (countEq len rest) len (countEq len rest) from rfl, hr]
        have hdrop : (rest.drop (countEq len rest)).length ≤ fuel := by
          have h1 := countEq_le len rest
          simp only [List.length_drop, List.length_cons] at *
          omega
        have hsub : ∀ x ∈ rest.drop (countEq len rest), x ≤ 15 := by
          intro x hx
          exact hbound x (List.mem_cons_of_mem _ (List.mem_of_mem_drop hx))
        rw [ih _ hdrop hsub len]
        rw [replicate_countEq_append len rest]

/-- C2: decoding the (symbol, extra) stream produced by the code-length
RLE encoder reproduces the original length array exactly, for every
length array (entries are code lengths, hence at most 15) and every
initial previous-length seed. -/
theorem c2_rle_round_trip (lengths : List ℕ) (prev : ℕ)
    (hbound : ∀ x ∈ lengths, x ≤ 15) :
    rle_decode prev (rle_encode_lengths lengths) = lengths :=
  rle_decode_encodeAux lengths.length lengths (le_refl _) hbound prev

/-- Witness for C2 on a concrete array mixing zero runs, repeats and
literals (and implicitly covering the all-zero and all-equal cases). -/
theorem c2_witness :
    (∀ x ∈ [0, 0, 0, 0, 0, 0, 0, 0, 0, 0, 0, 0, 5, 5, 5, 5, 5, 0, 0, 3], x ≤ 15) ∧
    rle_decode 0 (rle_encode_lengths [0, 0, 0, 0, 0, 0, 0, 0, 0, 0, 0, 0, 5, 5, 5, 5, 5, 0, 0, 3])
      = [0, 0, 0, 0, 0, 0, 0, 0, 0, 0, 0, 0, 5, 5, 5, 5, 5, 0, 0, 3] :=
  ⟨by decide, c2_rle_round_trip _ 0 (by decide)⟩

theorem rleEncodeZerosAux_length : ∀ fuel count, (rleEncodeZerosAux fuel count).length ≤ count := by
  intro fuel
  induction fuel with
  | zero => intro count; simp [rleEncodeZerosAux]
  | succ fuel ih =>
    intro count
    by_cases h0 : count = 0
    · simp [rleEncodeZerosAux, h0]
    · by_cases h11 : 11 ≤ count
      · simp only [rleEncodeZerosAux, if_neg h0, if_pos h11, List.length_cons]
        have := ih (count - min count 138)
        have hm : 11 ≤ min count 138 := le_min h11 (by norm_num)
        omega
      · by_cases h3 : 3 ≤ count
        · simp only [rleEncodeZerosAux, if_neg h0, if_neg h11, if_pos h3, List.length_cons]
          have := ih (count - min count 10)
          have hm : 3 ≤ min count 10 := le_min h3 (by norm_num)
          omega
        · simp only [rleEncodeZerosAux, if_neg h0, if_neg h11, if_neg h3, List.length_cons]
          have := ih (count - 1)
          omega

theorem rleEncodeRepsAux_length : ∀ fuel len count, (rleEncodeRepsAux fuel len count).length ≤ count := by
  intro fuel
  induction fuel with
  | zero => intro len count; simp [rleEncodeRepsAux]
  | succ fuel ih =>
    intro len count
    by_cases h3 : 3 ≤ count
    · simp only [rleEncodeRepsAux, if_pos h3, List.length_cons]
      have := ih len (count - min count 6)
      have hm : 3 ≤ min count 6 := le_min h3 (by norm_num)
      omega
    · simp [rleEncodeRepsAux, if_neg h3]

theorem rleEncodeAux_length : ∀ fuel (l : List ℕ), (rleEncodeAux fuel l).length ≤ l.length := by
  intro fuel
  induction fuel with
  | zero => intro l; simp [rleEncodeAux]
  | succ fuel ih =>
    intro l
    match l with
    | [] => simp [rleEncodeAux]
    | len :: rest =>
      by_cases h0 : len = 0
      · simp only [rleEncodeAux, if_pos h0, List.length_append, List.length_cons]
        have h1 := rleEncodeZerosAux_length (1 + countEq 0 rest) (1 + countEq 0 rest)
        have h2 := ih (rest.drop (countEq 0 rest))
        have h3 := countEq_le 0 rest
        simp only [List.length_drop] at h2
        calc (rleEncodeZeros (1 + countEq 0 rest)).length
              + (rleEncodeAux fuel (rest.drop (countEq 0 rest))).length
            ≤ (1 + countEq 0 rest) + (rest.length - countEq 0 rest) := by
              exact Nat.add_le_add h1 h2
          _ ≤ rest.length + 1 := by omega
      · simp only [rleEncodeAux, if_neg h0, List.length_cons, List.length_append]
        have h1 := rleEncodeRepsAux_length (countEq len rest) len (countEq len rest)
        have h2 := ih (rest.drop (countEq len rest))
        have h3 := countEq_le len rest
        simp only [List.length_drop] at h2
        have : (rleEncodeReps len (countEq len rest)).length
              + (rleEncodeAux fuel (rest.drop (countEq len rest))).length
            ≤ countEq len rest + (rest.length - countEq len rest) :=
          Nat.add_le_add h1 h2
        omega

/-- C10 (implicit bound): the RLE encoder emits at most one (symbol,
extra) pair per input position, so in particular its output always fits
in the `2 * (HLIT + HDIST)`-entry scratch buffers allocated by
`huffman_encode_dynamic_header`. -/
theorem c10_rle_output_bound (lengths : List ℕ) :
    (rle_encode_lengths lengths).length ≤ lengths.length ∧
    (rle_encode_lengths lengths).length ≤ 2 * lengths.length := by
  have h := rleEncodeAux_length lengths.length lengths
  exact ⟨h, by unfold rle_encode_lengths at *; omega⟩

/-! ## huffman_build_codes (src/c/huffman.c lines 43-275)

The node arena is a list of `HuffmanNode`; `-1` sentinels stay `ℤ`.
`qsort` with the `compare_nodes` comparator is embedded as insertion
sort: the comparator is a strict total order on the leaf nodes (their
symbols are distinct), so any comparison sort produces the same list.
Node frequency addition is `uint32_t`, hence `% 2 ^ 32`; the counters
and the `uint16_t` canonical-code accumulator are kept as `ℕ` (their
wrap-around would require more than `2 ^ 32` symbols, resp. `2 ^ 16`
codes of one length). -/

/-- The C `HuffmanCode` struct. -/
structure HuffmanCode where
  code : ℕ
  length : ℕ
deriving DecidableEq, Repr

/-- The C `HuffmanNode` struct. -/
structure HuffmanNode where
  freq : ℕ
  symbol : ℤ
  parent : ℤ
  left : ℤ
  right : ℤ
deriving DecidableEq, Repr

/-- Fallback node for out-of-bounds arena reads (unreachable on the
paths the C actually takes). -/
def noNode : HuffmanNode :=
  ⟨0, -1, -1, -1, -1⟩

/-- `compare_nodes`: order by frequency, ties by symbol index. -/
def nodeLE (a b : HuffmanNode) : Prop :=
  a.freq < b.freq ∨ (a.freq = b.freq ∧ a.symbol ≤ b.symbol)

instance nodeLEDec (a b : HuffmanNode) : Decidable (nodeLE a b) := by
  unfold nodeLE; infer_instance

/-- Insertion step of the sort. -/
def insertNode (a : HuffmanNode) : List HuffmanNode → List HuffmanNode
  | [] => [a]
  | b :: rest => if nodeLE a b then a :: b :: rest else b :: insertNode a rest

/-- The `qsort(nodes, num_used, ..., compare_nodes)` call. -/
def sortNodes : List HuffmanNode → List HuffmanNode
  | [] => []
  | a :: rest => insertNode a (sortNodes rest)

/-- Leaf-node initialisation (huffman.c lines 106-117): one node per
symbol with non-zero frequency, in increasing symbol order. -/
def leavesOf : List ℕ → ℕ → List HuffmanNode
  | [], _ => []
  | f :: rest, i =>
    if 0 < f then ⟨f, (i : ℤ), -1, -1, -1⟩ :: leavesOf rest (i + 1)
    else leavesOf rest (i + 1)

/-- The linear scan for the two smallest parentless nodes
(huffman.c lines 127-142); state is `(min1, min2, min1_freq, min2_freq)`
with `-1` index sentinels and `UINT32_MAX` frequency sentinels. -/
def findTwoMins (nodes : List HuffmanNode) : ℤ × ℤ × ℕ × ℕ :=
  nodes.enum.foldl
    (fun st ji =>
      let (min1, min2, f1, f2) := st
      let (j, nd) := ji
      if nd.parent = -1 then
        if nd.freq < f1 then ((j : ℤ), min1, nd.freq, f1)
        else if nd.freq < f2 then (min1, (j : ℤ), f1, nd.freq)
        else st
      else st)
    (-1, -1, 2 ^ 32 - 1, 2 ^ 32 - 1)

/-- One iteration of the tree-merging loop (huffman.c lines 124-155). -/
def mergeStep (nodes : List HuffmanNode) : List HuffmanNode :=
  let (min1, min2, f1, f2) := findTwoMins nodes
  let num_nodes := nodes.length
  let n1 := nodes.getD min1.toNat noNode
  let nodes1 := nodes.set min1.toNat ⟨n1.freq, n1.symbol, (num_nodes : ℤ), n1.left, n1.right⟩
  let n2 := nodes1.getD min2.toNat noNode
  let nodes2 := nodes1.set min2.toNat ⟨n2.freq, n2.symbol, (num_nodes : ℤ), n2.left, n2.right⟩
  nodes2 ++ [⟨(f1 + f2) % 2 ^ 32, -1, -1, min1, min2⟩]

/-- The full merge loop: `num_used - 1` iterations starting from the
sorted leaves. -/
def buildTreeNodes (leaves : List HuffmanNode) (num_used : ℕ) : List HuffmanNode :=
  (List.range (num_used - 1)).foldl (fun nodes _ => mergeStep nodes) (sortNodes leaves)

/-- Parent-pointer walk computing a leaf's depth (huffman.c lines
165-171), with fuel; parents always point to later arena entries, so
fuel `nodes.length` is sufficient. -/
def depthOf (nodes : List HuffmanNode) : ℕ → ℤ → ℕ
  | 0, _ => 0
  | fuel + 1, node =>
    if (nodes.getD node.toNat noNode).parent = -1 then 0
    else 1 + depthOf nodes fuel (nodes.getD node.toNat noNode).parent

/-- Initial per-symbol lengths: leaf depth capped at `max_bits`
(huffman.c lines 158-177). -/
def initialLengths (num_symbols max_bits num_used : ℕ) (nodes : List HuffmanNode) : List ℕ :=
  (List.range num_used).foldl
    (fun lengths (i : ℕ) =>
      let d := depthOf nodes nodes.length (i : ℤ)
      let d := if max_bits < d then max_bits else d
      lengths.set ((nodes.getD i noNode).symbol).toNat d)
    (List.replicate num_symbols 0)

/-- Histogram of code lengths (huffman.c lines 181-186); the `counts`
array has `MAX_BITS + 1 = 16` entries. -/
def countsOf (max_bits : ℕ) (lengths : List ℕ) : List ℕ :=
  lengths.foldl
    (fun counts l =>
      if 0 < l ∧ l ≤ max_bits then counts.set l (counts.getD l 0 + 1) else counts)
    (List.replicate 16 0)

/-- `used = sum counts[len] << (max_bits - len)` in `uint32_t`
(huffman.c lines 190-194). -/
def usedOf (max_bits : ℕ) (counts : List ℕ) : ℕ :=
  (List.range' 1 max_bits).foldl
    (fun used len => (used + counts.getD len 0 * 2 ^ (max_bits - len) % 2 ^ 32) % 2 ^ 32)
    0

/-- The scan for the shortest length below `max_bits` with available
codes (huffman.c lines 199-205). -/
def findShortest (max_bits : ℕ) (counts : List ℕ) : Option ℕ :=
  (List.range' 1 (max_bits - 1)).find? (fun len => decide (0 < counts.getD len 0))

/-- One iteration of the `while (used > target)` rebalancing loop
(huffman.c lines 197-224); `none` models loop exit (either the guard
fails or the `shortest == -1` break). -/
def rebalanceStep (max_bits : ℕ) (counts : List ℕ) (used : ℕ) : Option (List ℕ × ℕ) :=
  if used ≤ 2 ^ max_bits then none
  else
    match findShortest max_bits counts with
    | none => none
    | some sh =>
      if 2 ≤ counts.getD sh 0 then
        let counts1 := counts.set sh (counts.getD sh 0 - 2)
        let counts2 := counts1.set (sh + 1) (counts1.getD (sh + 1) 0 + 1)
        some (counts2, (used + 2 ^ 32 - 2 ^ (max_bits - sh) % 2 ^ 32) % 2 ^ 32)
      else if counts.getD sh 0 = 1 then
        let counts1 := counts.set sh (counts.getD sh 0 - 1)
        let counts2 := counts1.set (sh + 1) (counts1.getD (sh + 1) 0 + 1)
        some (counts2, (used + 2 ^ 32 - 2 ^ (max_bits - sh - 1) % 2 ^ 32) % 2 ^ 32)
      else
        some (counts, used)

/-- The rebalancing loop; every step strictly decreases `used`
(`rebalanceStep_used_lt` below), so fuel `used` is sufficient. -/
def rebalanceAux : ℕ → ℕ → List ℕ → ℕ → List ℕ × ℕ
  | 0, _, counts, used => (counts, used)
  | fuel + 1, max_bits, counts, used =>
    match rebalanceStep max_bits counts used with
    | none => (counts, used)
    | some (c', u') => rebalanceAux fuel max_bits c' u'

/-- Rebalancing entry point. -/
def rebalance (max_bits : ℕ) (counts : List ℕ) (used : ℕ) : List ℕ × ℕ :=
  rebalanceAux used max_bits counts used

/-- The scan for the shortest length with remaining capacity during
length reassignment (huffman.c lines 235-241). -/
def findAvailLen (max_bits : ℕ) (counts : List ℕ) : Option ℕ :=
  (List.range' 1 max_bits).find? (fun len => decide (0 < counts.getD len 0))

/-- Length reassignment from the repaired histogram (huffman.c lines
226-242): iterate sorted nodes from highest to lowest frequency, giving
each symbol the shortest still-available length. -/
def reassignLengths (max_bits num_used num_symbols : ℕ) (nodes : List HuffmanNode)
    (counts : List ℕ) : List ℕ × List ℕ :=
  (List.range num_used).reverse.foldl
    (fun st i =>
      let (lengths, counts) := st
      match findAvailLen max_bits counts with
      | none => st
      | some len =>
        (lengths.set ((nodes.getD i noNode).symbol).toNat len,
          counts.set len (counts.getD len 0 - 1)))
    (List.replicate num_symbols 0, counts)

/-- `bl_count` histogram for canonical code generation (huffman.c lines
248-253).  The histogram slots are `uint16_t`, so each increment is
taken modulo `2 ^ 16`. -/
def bl_countOf (lengths : List ℕ) : List ℕ :=
  lengths.foldl
    (fun bl l => if 0 < l then bl.set l ((bl.getD l 0 + 1) % 65536) else bl)
    (List.replicate 16 0)

/-- `next_code` construction (huffman.c lines 256-261):
`code = (code + bl_count[bits-1]) << 1` for `bits` in `1..=MAX_BITS`,
where `code` and the `next_code` slots are `uint16_t`, so each stored
value is truncated modulo `2 ^ 16`. -/
def next_codeOf (bl : List ℕ) : List ℕ :=
  ((List.range' 1 15).foldl
    (fun (st : List ℕ × ℕ) bits =>
      (st.1.set bits ((st.2 + bl.getD (bits - 1) 0) * 2 % 65536),
        (st.2 + bl.getD (bits - 1) 0) * 2 % 65536))
    (List.replicate 16 0, 0)).1

/-- Code assignment (huffman.c lines 264-271).  Each emitted pair is
`(pre, code)` where `pre` is the `next_code[len]` value read by the C
before bit reversal and `code` the stored `HuffmanCode`.  The
`next_code[len]++` increments a `uint16_t`, hence the `% 65536`. -/
def assignCodesAux : List ℕ → List ℕ → List (ℕ × HuffmanCode)
  | [], _ => []
  | l :: rest, nc =>
    if 0 < l then
      (nc.getD l 0, ⟨bit_reverse (nc.getD l 0) l, l⟩)
        :: assignCodesAux rest (nc.set l ((nc.getD l 0 + 1) % 65536))
    else
      (0, ⟨0, 0⟩) :: assignCodesAux rest nc

/-- Canonical code generation from a final length array. -/
def huffmanCodesFromLengths (lengths : List ℕ) : List (ℕ × HuffmanCode) :=
  assignCodesAux lengths (next_codeOf (bl_countOf lengths))

/-- Degenerate-path codes annotated with their pre-reversal values
(a length-1 code is its own bit reversal). -/
def pairsOfCodes (codes : List HuffmanCode) : List (ℕ × HuffmanCode) :=
  codes.map (fun c => (bit_reverse c.code c.length, c))

/-- `huffman_build_codes` returning each symbol's code together with
its pre-reversal canonical value. -/
def huffman_build_codes_pairs (frequencies : List ℕ) (max_bits : ℕ) :
    Option (List (ℕ × HuffmanCode)) :=
  if frequencies.length = 0 ∨ max_bits < 1 ∨ 15 < max_bits then none
  else if frequencies.countP (fun f => decide (0 < f)) = 0 then
    if 2 ≤ frequencies.length then
      some (pairsOfCodes
        (((List.replicate frequencies.length (⟨0, 0⟩ : HuffmanCode)).set 0 ⟨0, 1⟩).set 1 ⟨1, 1⟩))
    else
      some (pairsOfCodes
        ((List.replicate frequencies.length (⟨0, 0⟩ : HuffmanCode)).set 0 ⟨0, 1⟩))
  else if frequencies.countP (fun f => decide (0 < f)) = 1 then
    some (pairsOfCodes
      (if (if frequencies.findIdx (fun f => decide (0 < f)) = 0 then 1 else 0)
          < frequencies.length then
        ((List.replicate frequencies.length (⟨0, 0⟩ : HuffmanCode)).set
            (frequencies.findIdx (fun f => decide (0 < f))) ⟨0, 1⟩).set
          (if frequencies.findIdx (fun f => decide (0 < f)) = 0 then 1 else 0) ⟨1, 1⟩
      else
        (List.replicate frequencies.length (⟨0, 0⟩ : HuffmanCode)).set
          (frequencies.findIdx (fun f => decide (0 < f))) ⟨0, 1⟩))
  else
    let num_symbols := frequencies.length
    let num_used := frequencies.countP (fun f => decide (0 < f))
    let nodes := buildTreeNodes (leavesOf frequencies 0) num_used
    let lengths0 := initialLengths num_symbols max_bits num_used nodes
    let counts0 := countsOf max_bits lengths0
    let used0 := usedOf max_bits counts0
    let counts1 := (rebalance max_bits counts0 used0).1
    let lengths1 := (reassignLengths max_bits num_used num_symbols nodes counts1).1
    some (huffmanCodesFromLengths lengths1)

/-- `huffman_build_codes(frequencies, num_symbols, max_bits, codes)`
from huffman.c: `none` is the `-1` error return, `some codes` the
filled output array. -/
def huffman_build_codes (frequencies : List ℕ) (max_bits : ℕ) : Option (List HuffmanCode) :=
  (huffman_build_codes_pairs frequencies max_bits).map (List.map Prod.snd)

/-! ## Generic list access lemmas used throughout. -/

theorem getD_set_self {α : Type} (l : List α) (i : ℕ) (a d : α) (h : i < l.length) :
    (l.set i a).getD i d = a := by
  rw [List.getD_eq_getElem?_getD, List.getElem?_set_self (by simpa using h)]
  rfl

theorem getD_set_ne {α : Type} (l : List α) {i j : ℕ} (a : α) (d : α) (h : i ≠ j) :
    (l.set i a).getD j d = l.getD j d := by
  rw [List.getD_eq_getElem?_getD, List.getElem?_set_ne h, ← List.getD_eq_getElem?_getD]

theorem getD_replicate {α : Type} {n i : ℕ} (c d : α) (h : i < n) :
    (List.replicate n c).getD i d = c := by
  rw [List.getD_eq_getElem _ _ (by simpa using h)]
  simp

theorem getD_default {α : Type} (l : List α) {i : ℕ} (d : α) (h : l.length ≤ i) :
    l.getD i d = d :=
  List.getD_eq_default l d h

theorem map_snd_pairsOfCodes (codes : List HuffmanCode) :
    (pairsOfCodes codes).map Prod.snd = codes := by
  simp [pairsOfCodes, List.map_map]
  exact List.map_id codes

/-- C4: degenerate-alphabet handling of `huffman_build_codes`.  With no
used symbol and alphabet size at least 2, symbols 0 and 1 get codes
`0`/`1` of length 1 (for a one-symbol alphabet, its sole symbol gets
length 1); with exactly one used symbol `s` (the unique index found by
the first-hit scan), `s` gets code 0 of length 1, the other of indices
0 and 1 gets code 1 of length 1, and every other symbol is unused. -/
theorem c4_degenerate_cases (freqs : List ℕ) (mb : ℕ) (cs : List HuffmanCode)
    (h : huffman_build_codes freqs mb = some cs) :
    (freqs.countP (fun f => decide (0 < f)) = 0 → 2 ≤ freqs.length →
      cs.getD 0 ⟨0, 0⟩ = ⟨0, 1⟩ ∧ cs.getD 1 ⟨0, 0⟩ = ⟨1, 1⟩ ∧
      ∀ i, 2 ≤ i → cs.getD i ⟨0, 0⟩ = ⟨0, 0⟩) ∧
    (freqs.countP (fun f => decide (0 < f)) = 0 → freqs.length = 1 →
      cs = [⟨0, 1⟩]) ∧
    (freqs.countP (fun f => decide (0 < f)) = 1 → 2 ≤ freqs.length →
      cs.getD (freqs.findIdx (fun f => decide (0 < f))) ⟨0, 0⟩ = ⟨0, 1⟩ ∧
      cs.getD (if freqs.findIdx (fun f => decide (0 < f)) = 0 then 1 else 0) ⟨0, 0⟩ = ⟨1, 1⟩ ∧
      ∀ i, i ≠ freqs.findIdx (fun f => decide (0 < f)) →
        i ≠ (if freqs.findIdx (fun f => decide (0 < f)) = 0 then 1 else 0) →
        cs.getD i ⟨0, 0⟩ = ⟨0, 0⟩) := by
  by_cases hv : freqs.length = 0 ∨ mb < 1 ∨ 15 < mb
  · rw [huffman_build_codes, huffman_build_codes_pairs, if_pos hv] at h
    exact absurd h (by simp)
  refine ⟨?_, ?_, ?_⟩
  · intro hcount hn
    rw [huffman_build_codes, huffman_build_codes_pairs, if_neg hv, if_pos hcount,
      if_pos hn] at h
    rw [Option.map_some', map_snd_pairsOfCodes] at h
    obtain rfl := Option.some_inj.mp h
    refine ⟨?_, ?_, ?_⟩
    · rw [getD_set_ne _ _ _ (by omega), getD_set_self _ _ _ _ (by simp; omega)]
    · rw [getD_set_self _ _ _ _ (by simp; omega)]
    · intro i hi
      rw [getD_set_ne _ _ _ (by omega), getD_set_ne _ _ _ (by omega)]
      by_cases hilen : i < freqs.length
      · exact getD_replicate _ _ hilen
      · exact getD_default _ _ (by simpa using hilen)
  · intro hcount hn
    rw [huffman_build_codes, huffman_build_codes_pairs, if_neg hv, if_pos hcount,
      if_neg (by omega : ¬2 ≤ freqs.length)] at h
    rw [Option.map_some', map_snd_pairsOfCodes] at h
    obtain rfl := Option.some_inj.mp h
    rw [hn]
    rfl
  · intro hcount hn
    have hfind : freqs.findIdx (fun f => decide (0 < f)) < freqs.length := by
      apply List.findIdx_lt_length_of_exists
      have : 0 < freqs.countP (fun f => decide (0 < f)) := by omega
      simpa using List.countP_pos_iff.mp this
    have hdummy : (if freqs.findIdx (fun f => decide (0 < f)) = 0 then 1 else 0)
        < freqs.length := by
      split <;> omega
    rw [huffman_build_codes, huffman_build_codes_pairs, if_neg hv,
      if_neg (by omega : ¬freqs.countP (fun f => decide (0 < f)) = 0), if_pos hcount,
      if_pos hdummy] at h
    rw [Option.map_some', map_snd_pairsOfCodes] at h
    obtain rfl := Option.some_inj.mp h
    have hne : (if freqs.findIdx (fun f => decide (0 < f)) = 0 then 1 else 0)
        ≠ freqs.findIdx (fun f => decide (0 < f)) := by split <;> omega
    refine ⟨?_, ?_, ?_⟩
    · rw [getD_set_ne _ _ _ hne, getD_set_self _ _ _ _ (by simpa using hfind)]
    · rw [getD_set_self _ _ _ _ (by simpa using hdummy)]
    · intro i hi1 hi2
      rw [getD_set_ne _ _ _ (Ne.symm hi2), getD_set_ne _ _ _ (Ne.symm hi1)]
      by_cases hilen : i < freqs.length
      · exact getD_replicate _ _ hilen
      · exact getD_default _ _ (by simpa using hilen)

/-- Witness for C4 at the spec's own examples `[0,0]` and `[0,0,0,7,0]`. -/
theorem c4_witness :
    huffman_build_codes [0, 0, 0, 7, 0] 15
      = some [⟨1, 1⟩, ⟨0, 0⟩, ⟨0, 0⟩, ⟨0, 1⟩, ⟨0, 0⟩] ∧
    ([0, 0, 0, 7, 0] : List ℕ).countP (fun f => decide (0 < f)) = 1 ∧
    2 ≤ ([0, 0, 0, 7, 0] : List ℕ).length ∧
    ([5, 0, 0, 7, 0] : List ℕ).findIdx (fun f => decide (0 < f)) = 0 ∧
    ((some [⟨1, 1⟩, ⟨0, 0⟩, ⟨0, 0⟩, ⟨0, 1⟩, ⟨0, 0⟩] : Option (List HuffmanCode)).getD []).getD
      (([0, 0, 0, 7, 0] : List ℕ).findIdx (fun f => decide (0 < f))) ⟨0, 0⟩ = ⟨0, 1⟩ := by
  refine ⟨by decide, by decide, by decide, by decide, ?_⟩
  have h := c4_degenerate_cases [0, 0, 0, 7, 0] 15 [⟨1, 1⟩, ⟨0, 0⟩, ⟨0, 0⟩, ⟨0, 1⟩, ⟨0, 0⟩]
    (by decide)
  exact h.2.2 (by decide) (by decide) |>.1

/-! ## Rebalancing loop: termination (C7) -/

theorem findShortest_spec {mb : ℕ} {counts : List ℕ} {sh : ℕ}
    (h : findShortest mb counts = some sh) :
    1 ≤ sh ∧ sh < mb ∧ 0 < counts.getD sh 0 := by
  unfold findShortest at h
  have h1 := List.find?_some h
  have h2 := List.mem_of_find?_eq_some h
  rw [List.mem_range'_1] at h2
  simp only [decide_eq_true_eq] at h1
  exact ⟨h2.1, by omega, h1⟩

theorem findShortest_none {mb : ℕ} {counts : List ℕ}
    (h : findShortest mb counts = none) :
    ∀ L, 1 ≤ L → L < mb → counts.getD L 0 = 0 := by
  intro L hL1 hLmb
  unfold findShortest at h
  rw [List.find?_eq_none] at h
  have := h L (by rw [List.mem_range'_1]; omega)
  simp only [decide_eq_true_eq] at this
  omega

theorem wrapSub_lt {used d : ℕ} (hd0 : 0 < d) (hdu : d < used) :
    (used + 2 ^ 32 - d) % 2 ^ 32 < used := by
  by_cases hu : used < 2 ^ 32
  · have he : used + 2 ^ 32 - d = (used - d) + 2 ^ 32 := by omega
    rw [he, Nat.add_mod_right, Nat.mod_eq_of_lt (by omega)]
    omega
  · have : (used + 2 ^ 32 - d) % 2 ^ 32 < 2 ^ 32 := Nat.mod_lt _ (by positivity)
    omega

theorem rebalanceStep_used_lt {mb : ℕ} (hmb15 : mb ≤ 15) {counts : List ℕ}
    {used : ℕ} {counts' : List ℕ} {used' : ℕ}
    (h : rebalanceStep mb counts used = some (counts', used')) :
    used' < used := by
  unfold rebalanceStep at h
  by_cases hg : used ≤ 2 ^ mb
  · rw [if_pos hg] at h; exact absurd h (by simp)
  rw [if_neg hg] at h
  cases hf : findShortest mb counts with
  | none => rw [hf] at h; exact absurd h (by simp)
  | some sh =>
    rw [hf] at h
    dsimp only at h
    obtain ⟨hsh1, hshmb, hpos⟩ := findShortest_spec hf
    have hd32 : ∀ e : ℕ, e ≤ 14 → 2 ^ e % 2 ^ 32 = 2 ^ e := fun e he =>
      Nat.mod_eq_of_lt (Nat.pow_lt_pow_right (by norm_num) (by omega))
    by_cases h2 : 2 ≤ counts.getD sh 0
    · rw [if_pos h2] at h
      simp only [Option.some_inj, Prod.mk.injEq] at h
      rw [← h.2, hd32 (mb - sh) (by omega)]
      apply wrapSub_lt (by positivity)
      calc 2 ^ (mb - sh) ≤ 2 ^ (mb - 1) := Nat.pow_le_pow_right (by norm_num) (by omega)
        _ < 2 ^ mb := Nat.pow_lt_pow_right (by norm_num) (by omega)
        _ < used := by omega
    · have h1 : counts.getD sh 0 = 1 := by omega
      rw [if_neg h2, if_pos h1] at h
      simp only [Option.some_inj, Prod.mk.injEq] at h
      rw [← h.2, hd32 (mb - sh - 1) (by omega)]
      apply wrapSub_lt (by positivity)
      calc 2 ^ (mb - sh - 1) ≤ 2 ^ (mb - 1) := Nat.pow_le_pow_right (by norm_num) (by omega)
        _ < 2 ^ mb := Nat.pow_lt_pow_right (by norm_num) (by omega)
        _ < used := by omega

/-- C7: the Kraft rebalancing loop terminates.  For every histogram
state and `max_bits` in 1..=15, one loop iteration either exits — the
guard `used > target` fails, or no length `L < max_bits` has
`counts[L] > 0` — or strictly decreases the non-negative integer `used`
(the target `2 ^ max_bits` is not part of the mutable state and stays
fixed). -/
theorem c7_rebalance_terminates (mb : ℕ) (counts : List ℕ) (used : ℕ)
    (hmb1 : 1 ≤ mb) (hmb15 : mb ≤ 15) :
    (∀ counts' used', rebalanceStep mb counts used = some (counts', used') →
      used' < used) ∧
    (rebalanceStep mb counts used = none →
      used ≤ 2 ^ mb ∨ ∀ L, 1 ≤ L → L < mb → counts.getD L 0 = 0) := by
  constructor
  · intro counts' used' h
    exact rebalanceStep_used_lt hmb15 h
  · intro h
    by_cases hg : used ≤ 2 ^ mb
    · exact Or.inl hg
    · right
      unfold rebalanceStep at h
      rw [if_neg hg] at h
      cases hf : findShortest mb counts with
      | none => exact findShortest_none hf
      | some sh =>
        rw [hf] at h
        dsimp only at h
        by_cases h2 : 2 ≤ counts.getD sh 0
        · rw [if_pos h2] at h; exact absurd h (by simp)
        · by_cases h1 : counts.getD sh 0 = 1
          · rw [if_neg h2, if_pos h1] at h; exact absurd h (by simp)
          · rw [if_neg h2, if_neg h1] at h; exact absurd h (by simp)

/-- Witness for C7 at a concrete oversubscribed state. -/
theorem c7_witness :
    1 ≤ 2 ∧ 2 ≤ 15 ∧
    rebalanceStep 2 [0, 1, 0] 5 = some ([0, 0, 1], 4) ∧ 4 < 5 :=
  ⟨by decide, by decide, by decide,
    (c7_rebalance_terminates 2 [0, 1, 0] 5 (by decide) (by decide)).1 [0, 0, 1] 4 (by decide)⟩

/-! ## Canonical code assignment: ordering (C5) -/

/-- Default pair for out-of-range reads of the assignment output. -/
def defPair : ℕ × HuffmanCode := (0, ⟨0, 0⟩)

theorem foldl_invariant {α β : Type} (f : β → α → β) (P : β → Prop) :
    ∀ (l : List α) (b : β), P b → (∀ st a, P st → P (f st a)) → P (l.foldl f b) := by
  intro l
  induction l with
  | nil => intro b hb _; exact hb
  | cons a rest ih => intro b hb hf; exact ih (f b a) (hf b a hb) hf

theorem assignCodesAux_length : ∀ (lengths nc : List ℕ),
    (assignCodesAux lengths nc).length = lengths.length := by
  intro lengths
  induction lengths with
  | nil => intro nc; rfl
  | cons l rest ih =>
    intro nc
    by_cases h : 0 < l <;> simp [assignCodesAux, h, ih]

theorem assignCodesAux_getD_length : ∀ (lengths nc : List ℕ) (i : ℕ), i < lengths.length →
    ((assignCodesAux lengths nc).getD i defPair).2.length = lengths.getD i 0 := by
  intro lengths
  induction lengths with
  | nil => intro nc i hi; simp at hi
  | cons l rest ih =>
    intro nc i hi
    by_cases h : 0 < l
    · cases i with
      | zero => simp [assignCodesAux, if_pos h]
      | succ i =>
        simp only [assignCodesAux, if_pos h, List.getD_cons_succ]
        exact ih _ i (by simpa using hi)
    · cases i with
      | zero => simp [assignCodesAux, if_neg h]; omega
      | succ i =>
        simp only [assignCodesAux, if_neg h, List.getD_cons_succ]
        exact ih _ i (by simpa using hi)

/-- No-wrap budget for the `uint16_t` `next_code` table: each in-range
entry plus the number of codes of that length still to be assigned
stays at most `2 ^ 15`, so `next_code[len]++` never wraps during the
assignment pass. -/
def ncInv (nc lengths : List ℕ) : Prop :=
  ∀ L, 1 ≤ L → L ≤ 15 → nc.getD L 0 + lengths.count L ≤ 2 ^ 15

theorem ncInv_tail (nc : List ℕ) (l : ℕ) (rest : List ℕ)
    (hinv : ncInv nc (l :: rest)) : ncInv nc rest := by
  intro L hL1 hL15
  have h := hinv L hL1 hL15
  have hle : rest.count L ≤ (l :: rest).count L := by
    rw [List.count_cons]
    split <;> omega
  omega

theorem ncInv_step (nc : List ℕ) (l : ℕ) (rest : List ℕ) (h16 : nc.length = 16)
    (hinv : ncInv nc (l :: rest)) (hl : 0 < l) (hl15 : l ≤ 15) :
    (nc.getD l 0 + 1) % 65536 = nc.getD l 0 + 1 ∧
    ncInv (nc.set l ((nc.getD l 0 + 1) % 65536)) rest := by
  have hcount : (l :: rest).count l = rest.count l + 1 := List.count_cons_self l rest
  have hbud := hinv l (by omega) hl15
  rw [hcount] at hbud
  have hid : (nc.getD l 0 + 1) % 65536 = nc.getD l 0 + 1 :=
    Nat.mod_eq_of_lt (by omega)
  refine ⟨hid, ?_⟩
  intro L hL1 hL15
  by_cases heq : l = L
  · subst heq
    rw [hid, getD_set_self _ _ _ _ (by omega)]
    omega
  · rw [getD_set_ne _ _ _ heq]
    have h := hinv L hL1 hL15
    rw [List.count_cons_of_ne (fun he => heq he.symm)] at h
    exact h

theorem assignCodesAux_lower_bound :
    ∀ (lengths nc : List ℕ) (j : ℕ), j < lengths.length → nc.length = 16 →
      ncInv nc lengths →
      lengths.getD j 0 ≤ 15 → 0 < lengths.getD j 0 →
      nc.getD (lengths.getD j 0) 0 ≤ ((assignCodesAux lengths nc).getD j defPair).1 := by
  intro lengths
  induction lengths with
  | nil => intro nc j hj; simp at hj
  | cons l rest ih =>
    intro nc j hj hnc hinv h15 hpos
    cases j with
    | zero =>
      simp only [List.getD_cons_zero] at h15 hpos ⊢
      simp [assignCodesAux, if_pos hpos]
    | succ j =>
      simp only [List.getD_cons_succ] at h15 hpos ⊢
      by_cases h : 0 < l
      · simp only [assignCodesAux, if_pos h, List.getD_cons_succ]
        by_cases hl15 : l ≤ 15
        · obtain ⟨hid, hinv'⟩ := ncInv_step nc l rest hnc hinv h hl15
          have hle : nc.getD (rest.getD j 0) 0
              ≤ (nc.set l ((nc.getD l 0 + 1) % 65536)).getD (rest.getD j 0) 0 := by
            by_cases heq : l = rest.getD j 0
            · subst heq
              rw [hid, getD_set_self _ _ _ _ (by omega)]
              omega
            · rw [getD_set_ne _ _ _ heq]
          exact le_trans hle
            (ih _ j (by simpa using hj) (by simpa using hnc) hinv' h15 hpos)
        · have hset : nc.set l ((nc.getD l 0 + 1) % 65536) = nc :=
            List.set_eq_of_length_le (by omega)
          rw [hset]
          exact ih _ j (by simpa using hj) hnc (ncInv_tail nc l rest hinv) h15 hpos
      · simp only [assignCodesAux, if_neg h, List.getD_cons_succ]
        exact ih _ j (by simpa using hj) hnc (ncInv_tail nc l rest hinv) h15 hpos

theorem assignCodesAux_strict_mono :
    ∀ (lengths nc : List ℕ) (i j : ℕ), (∀ x ∈ lengths, x ≤ 15) → nc.length = 16 →
      ncInv nc lengths →
      i < j → j < lengths.length →
      lengths.getD i 0 = lengths.getD j 0 → 0 < lengths.getD i 0 →
      ((assignCodesAux lengths nc).getD i defPair).1
        < ((assignCodesAux lengths nc).getD j defPair).1 := by
  intro lengths
  induction lengths with
  | nil => intro nc i j _ _ _ _ hj; simp at hj
  | cons l rest ih =>
    intro nc i j hb hnc hinv hij hj heq hpos
    cases i with
    | zero =>
      cases j with
      | zero => omega
      | succ j =>
        simp only [List.getD_cons_zero, List.getD_cons_succ] at heq hpos
        have hl15 : l ≤ 15 := hb l (List.mem_cons_self _ _)
        obtain ⟨hid, hinv'⟩ := ncInv_step nc l rest hnc hinv hpos hl15
        simp only [assignCodesAux, if_pos hpos, List.getD_cons_zero, List.getD_cons_succ]
        have hlb := assignCodesAux_lower_bound rest
          (nc.set l ((nc.getD l 0 + 1) % 65536)) j
          (by simpa using hj) (by simpa using hnc) hinv' (heq ▸ hl15) (heq ▸ hpos)
        rw [← heq] at hlb
        have hkey : (nc.set l ((nc.getD l 0 + 1) % 65536)).getD l 0 = nc.getD l 0 + 1 := by
          rw [getD_set_self _ _ _ _ (by omega)]
          exact hid
        rw [hkey] at hlb
        omega
    | succ i =>
      cases j with
      | zero => omega
      | succ j =>
        simp only [List.getD_cons_succ] at heq hpos
        have hbrest : ∀ x ∈ rest, x ≤ 15 := fun x hx => hb x (List.mem_cons_of_mem _ hx)
        by_cases h : 0 < l
        · have hl15 : l ≤ 15 := hb l (List.mem_cons_self _ _)
          obtain ⟨_, hinv'⟩ := ncInv_step nc l rest hnc hinv h hl15
          simp only [assignCodesAux, if_pos h, List.getD_cons_succ]
          exact ih _ i j hbrest (by simpa using hnc) hinv' (by omega)
            (by simpa using hj) heq hpos
        · simp only [assignCodesAux, if_neg h, List.getD_cons_succ]
          exact ih _ i j hbrest hnc (ncInv_tail nc l rest hinv) (by omega)
            (by simpa using hj) heq hpos

theorem next_codeOf_length (bl : List ℕ) : (next_codeOf bl).length = 16 := by
  unfold next_codeOf
  have h := foldl_invariant
    (fun (st : List ℕ × ℕ) bits =>
      ((st.1.set bits ((st.2 + bl.getD (bits - 1) 0) * 2 % 65536),
        (st.2 + bl.getD (bits - 1) 0) * 2 % 65536)))
    (fun st => st.1.length = 16) (List.range' 1 15) (List.replicate 16 0, 0) (by simp)
    (fun st a hst => by simpa using hst)
  exact h

theorem findAvailLen_spec {mb : ℕ} {counts : List ℕ} {len : ℕ}
    (h : findAvailLen mb counts = some len) :
    1 ≤ len ∧ len ≤ mb ∧ 0 < counts.getD len 0 := by
  unfold findAvailLen at h
  have h1 := List.find?_some h
  have h2 := List.mem_of_find?_eq_some h
  rw [List.mem_range'_1] at h2
  simp only [decide_eq_true_eq] at h1
  exact ⟨h2.1, by omega, h1⟩

theorem reassignLengths_bounded (mb num_used num_symbols : ℕ) (nodes : List HuffmanNode)
    (counts : List ℕ) :
    ∀ x ∈ (reassignLengths mb num_used num_symbols nodes counts).1, x ≤ mb := by
  unfold reassignLengths
  have h := foldl_invariant
    (fun (st : List ℕ × List ℕ) (i : ℕ) =>
      match findAvailLen mb st.2 with
      | none => st
      | some len =>
        (st.1.set ((nodes.getD i noNode).symbol).toNat len,
          st.2.set len (st.2.getD len 0 - 1)))
    (fun st => ∀ x ∈ st.1, x ≤ mb) (List.range num_used).reverse
    (List.replicate num_symbols 0, counts)
    (by intro x hx; rw [List.eq_of_mem_replicate hx]; omega)
    ?_
  · exact h
  · intro st a hst x hx
    dsimp only at hx
    cases hf : findAvailLen mb st.2 with
    | none => rw [hf] at hx; exact hst x hx
    | some len =>
      rw [hf] at hx
      dsimp only at hx
      rcases List.mem_or_eq_of_mem_set hx with hx' | rfl
      · exact hst x hx'
      · exact (findAvailLen_spec hf).2.1

/-- C5 counterexample: on the single-used-symbol input `[0,0,0,7,0]`
the run succeeds, symbols 0 and 3 both have code length 1, yet the
pre-reversal code values are 1 (symbol 0) and 0 (symbol 3) - they
decrease as the symbol index increases. -/
theorem c5_counterexample :
    huffman_build_codes_pairs [0, 0, 0, 7, 0] 15
      = some [(1, ⟨1, 1⟩), (0, ⟨0, 0⟩), (0, ⟨0, 0⟩), (0, ⟨0, 1⟩), (0, ⟨0, 0⟩)] ∧
    (([(1, ⟨1, 1⟩), (0, ⟨0, 0⟩), (0, ⟨0, 0⟩), (0, ⟨0, 1⟩), (0, ⟨0, 0⟩)] :
        List (ℕ × HuffmanCode)).getD 0 defPair).2.length
      = (([(1, ⟨1, 1⟩), (0, ⟨0, 0⟩), (0, ⟨0, 0⟩), (0, ⟨0, 1⟩), (0, ⟨0, 0⟩)] :
        List (ℕ × HuffmanCode)).getD 3 defPair).2.length ∧
    0 < (([(1, ⟨1, 1⟩), (0, ⟨0, 0⟩), (0, ⟨0, 0⟩), (0, ⟨0, 1⟩), (0, ⟨0, 0⟩)] :
        List (ℕ × HuffmanCode)).getD 0 defPair).2.length ∧
    ¬((([(1, ⟨1, 1⟩), (0, ⟨0, 0⟩), (0, ⟨0, 0⟩), (0, ⟨0, 1⟩), (0, ⟨0, 0⟩)] :
        List (ℕ × HuffmanCode)).getD 0 defPair).1
      < (([(1, ⟨1, 1⟩), (0, ⟨0, 0⟩), (0, ⟨0, 0⟩), (0, ⟨0, 1⟩), (0, ⟨0, 0⟩)] :
        List (ℕ × HuffmanCode)).getD 3 defPair).1) := by
  refine ⟨?_, by decide, by decide, by decide⟩
  decide

theorem pairsOfCodes_length (codes : List HuffmanCode) :
    (pairsOfCodes codes).length = codes.length := by
  simp [pairsOfCodes]

theorem pairsOfCodes_getD (codes : List HuffmanCode) (k : ℕ) (hk : k < codes.length) :
    (pairsOfCodes codes).getD k defPair
      = (bit_reverse (codes.getD k ⟨0, 0⟩).code (codes.getD k ⟨0, 0⟩).length,
        codes.getD k ⟨0, 0⟩) := by
  rw [List.getD_eq_getElem _ _ (by simpa [pairsOfCodes] using hk),
    List.getD_eq_getElem _ _ hk]
  simp [pairsOfCodes, defPair]

/-! ## Kraft inequality (C1) -/

/-- Kraft sum `Σ 2 ^ (-length)` over the produced codes, as a rational. -/
def kraftSumQ : List HuffmanCode → ℚ
  | [] => 0
  | c :: rest => (if 0 < c.length then (1 : ℚ) / 2 ^ c.length else 0) + kraftSumQ rest

/-- Kraft sum of a length array, as a rational. -/
def kraftLenQ : List ℕ → ℚ
  | [] => 0
  | l :: rest => (if 0 < l then (1 : ℚ) / 2 ^ l else 0) + kraftLenQ rest

/-- Kraft numerator: `Σ 2 ^ (max_bits - length)` over used lengths. -/
def kraftNum (mb : ℕ) : List ℕ → ℕ
  | [] => 0
  | l :: rest => (if 0 < l ∧ l ≤ mb then 2 ^ (mb - l) else 0) + kraftNum mb rest

/-- Exact (non-wrapping) value of the C `used` accumulator. -/
def usedPure (mb : ℕ) (counts : List ℕ) : ℕ :=
  ((List.range' 1 mb).map (fun len => counts.getD len 0 * 2 ^ (mb - len))).sum

/-- Total number of codes recorded in the histogram. -/
def totalCounts (mb : ℕ) (counts : List ℕ) : ℕ :=
  ((List.range' 1 mb).map (fun len => counts.getD len 0)).sum

/-- C1 counterexample.  (a) On `[1,1,1]` with `max_bits = 1` the run
succeeds with three length-1 codes, so the Kraft sum is `3/2 > 1`
(the rebalancing loop breaks with no length below `max_bits` to move).
(b) On `[1,1,2,4,8]` with `max_bits = 3` (five used symbols) the run
succeeds with Kraft sum `7/8 < 1`: the `counts[L+1] += 1` move drops a
capacity unit, so equality fails although at least 2 symbols are used. -/
theorem c1_counterexample :
    (huffman_build_codes [1, 1, 1] 1 = some [⟨0, 1⟩, ⟨1, 1⟩, ⟨0, 1⟩] ∧
      kraftSumQ [⟨0, 1⟩, ⟨1, 1⟩, ⟨0, 1⟩] = 3 / 2 ∧ ¬(kraftSumQ [⟨0, 1⟩, ⟨1, 1⟩, ⟨0, 1⟩] ≤ 1)) ∧
    (huffman_build_codes [1, 1, 2, 4, 8] 3
        = some [⟨1, 3⟩, ⟨5, 3⟩, ⟨3, 3⟩, ⟨0, 2⟩, ⟨2, 2⟩] ∧
      ([1, 1, 2, 4, 8] : List ℕ).countP (fun f => decide (0 < f)) = 5 ∧
      kraftSumQ [⟨1, 3⟩, ⟨5, 3⟩, ⟨3, 3⟩, ⟨0, 2⟩, ⟨2, 2⟩] = 7 / 8 ∧
      kraftSumQ [⟨1, 3⟩, ⟨5, 3⟩, ⟨3, 3⟩, ⟨0, 2⟩, ⟨2, 2⟩] ≠ 1) := by
  refine ⟨⟨by decide, by norm_num [kraftSumQ], by norm_num [kraftSumQ]⟩,
    ⟨by decide, by decide, by norm_num [kraftSumQ], by norm_num [kraftSumQ]⟩⟩

theorem map_getD_set_not_mem (counts : List ℕ) (w : ℕ → ℕ) (i v : ℕ) :
    ∀ L : List ℕ, i ∉ L →
      L.map (fun len => (counts.set i v).getD len 0 * w len)
        = L.map (fun len => counts.getD len 0 * w len) := by
  intro L hL
  apply List.map_congr_left
  intro len hlen
  rw [getD_set_ne _ _ _ (fun he => hL (by rw [he]; exact hlen))]

theorem sum_map_set (counts : List ℕ) (w : ℕ → ℕ) (i v : ℕ) (hi : i < counts.length) :
    ∀ L : List ℕ, L.Nodup → i ∈ L →
      (L.map (fun len => (counts.set i v).getD len 0 * w len)).sum + counts.getD i 0 * w i
        = (L.map (fun len => counts.getD len 0 * w len)).sum + v * w i := by
  intro L
  induction L with
  | nil => intro _ h; simp at h
  | cons a rest ih =>
    intro hnd hmem
    rcases List.mem_cons.mp hmem with heq | hmem'
    · have hnotin : i ∉ rest := by rw [heq]; exact (List.nodup_cons.mp hnd).1
      simp only [List.map_cons, List.sum_cons]
      rw [← heq, map_getD_set_not_mem counts w i v rest hnotin, getD_set_self _ _ _ _ hi]
      ring
    · have hne : a ≠ i := by rintro rfl; exact (List.nodup_cons.mp hnd).1 hmem'
      simp only [List.map_cons, List.sum_cons]
      rw [getD_set_ne _ _ _ (fun he => hne he.symm)]
      have hih := ih (List.nodup_cons.mp hnd).2 hmem'
      linarith

theorem usedPure_set (mb : ℕ) (counts : List ℕ) (i v : ℕ) (hi : i < counts.length)
    (h1 : 1 ≤ i) (h2 : i ≤ mb) :
    usedPure mb (counts.set i v) + counts.getD i 0 * 2 ^ (mb - i)
      = usedPure mb counts + v * 2 ^ (mb - i) := by
  have h := sum_map_set counts (fun len => 2 ^ (mb - len)) i v hi (List.range' 1 mb)
    (List.nodup_range' _ _) (by rw [List.mem_range'_1]; omega)
  simpa [usedPure] using h

theorem totalCounts_set (mb : ℕ) (counts : List ℕ) (i v : ℕ) (hi : i < counts.length)
    (h1 : 1 ≤ i) (h2 : i ≤ mb) :
    totalCounts mb (counts.set i v) + counts.getD i 0 = totalCounts mb counts + v := by
  have h := sum_map_set counts (fun _ => 1) i v hi (List.range' 1 mb)
    (List.nodup_range' _ _) (by rw [List.mem_range'_1]; omega)
  simpa [totalCounts, mul_one] using h

theorem usedPure_term_le (mb : ℕ) (counts : List ℕ) (len : ℕ) (h1 : 1 ≤ len)
    (h2 : len ≤ mb) :
    counts.getD len 0 * 2 ^ (mb - len) ≤ usedPure mb counts := by
  apply List.single_le_sum (fun x _ => Nat.zero_le x)
  exact List.mem_map.mpr ⟨len, by rw [List.mem_range'_1]; omega, rfl⟩

theorem totalCounts_term_le (mb : ℕ) (counts : List ℕ) (len : ℕ) (h1 : 1 ≤ len)
    (h2 : len ≤ mb) :
    counts.getD len 0 ≤ totalCounts mb counts := by
  apply List.single_le_sum (fun x _ => Nat.zero_le x)
  exact List.mem_map.mpr ⟨len, by rw [List.mem_range'_1]; omega, rfl⟩

theorem usedPure_le (mb : ℕ) (counts : List ℕ) :
    usedPure mb counts ≤ totalCounts mb counts * 2 ^ (mb - 1) := by
  unfold usedPure totalCounts
  rw [← List.sum_map_mul_right]
  apply List.sum_le_sum
  intro len hlen
  rw [List.mem_range'_1] at hlen
  exact Nat.mul_le_mul_left _ (Nat.pow_le_pow_right (by norm_num) (by omega))

theorem foldl_mod_eq_sum (c : ℕ → ℕ) :
    ∀ (L : List ℕ) (acc : ℕ), acc + (L.map c).sum < 2 ^ 32 →
      L.foldl (fun u len => (u + c len % 2 ^ 32) % 2 ^ 32) acc = acc + (L.map c).sum := by
  intro L
  induction L with
  | nil => intro acc _; simp
  | cons a rest ih =>
    intro acc h
    simp only [List.foldl_cons, List.map_cons, List.sum_cons] at *
    have hca : c a % 2 ^ 32 = c a := Nat.mod_eq_of_lt (by omega)
    rw [hca, Nat.mod_eq_of_lt (by omega), ih _ (by omega)]
    omega

theorem usedOf_eq_usedPure (mb : ℕ) (counts : List ℕ) (h : usedPure mb counts < 2 ^ 32) :
    usedOf mb counts = usedPure mb counts := by
  have := foldl_mod_eq_sum (fun len => counts.getD len 0 * 2 ^ (mb - len))
    (List.range' 1 mb) 0 (by simpa [usedPure] using h)
  simpa [usedOf, usedPure] using this

theorem countsOf_length (mb : ℕ) (lengths : List ℕ) : (countsOf mb lengths).length = 16 := by
  unfold countsOf
  apply foldl_invariant _ (fun c : List ℕ => c.length = 16) lengths _ (by simp)
  intro st a hst
  dsimp only
  split
  · simp [hst]
  · exact hst

theorem countsOf_total_le (mb : ℕ) (hmb : mb ≤ 15) (lengths : List ℕ) :
    totalCounts mb (countsOf mb lengths)
      ≤ lengths.countP (fun l => decide (0 < l)) := by
  unfold countsOf
  have main : ∀ (L : List ℕ) (counts : List ℕ), counts.length = 16 →
      totalCounts mb (L.foldl (fun counts l =>
          if 0 < l ∧ l ≤ mb then counts.set l (counts.getD l 0 + 1) else counts) counts)
        ≤ totalCounts mb counts + L.countP (fun l => decide (0 < l)) := by
    intro L
    induction L with
    | nil => intro counts _; simp
    | cons a rest ih =>
      intro counts hlen
      simp only [List.foldl_cons, List.countP_cons]
      by_cases ha : 0 < a ∧ a ≤ mb
      · rw [if_pos ha]
        have hset := totalCounts_set mb counts a (counts.getD a 0 + 1) (by omega)
          (by omega) ha.2
        have hrec := ih (counts.set a (counts.getD a 0 + 1)) (by simp [hlen])
        have hpa : (if decide (0 < a) = true then 1 else 0) = 1 := by
          simp
          omega
        omega
      · rw [if_neg ha]
        have hrec := ih counts hlen
        have : (if decide (0 < a) = true then 1 else 0) ≤ 1 := by split <;> omega
        omega
  have hz : totalCounts mb (List.replicate 16 0) = 0 := by
    apply List.sum_eq_zero
    intro x hx
    rcases List.mem_map.mp hx with ⟨len, hlen, rfl⟩
    rw [List.mem_range'_1] at hlen
    rw [getD_replicate _ _ (by omega)]
  have := main lengths (List.replicate 16 0) (by simp)
  omega

theorem countP_set_le {α : Type} (p : α → Bool) :
    ∀ (l : List α) (n : ℕ) (v : α), (l.set n v).countP p ≤ l.countP p + 1 := by
  intro l
  induction l with
  | nil => intro n v; simp
  | cons a rest ih =>
    intro n v
    cases n with
    | zero =>
      simp only [List.set_cons_zero, List.countP_cons]
      by_cases hv : p v <;> by_cases ha : p a <;> simp [hv, ha] <;> omega
    | succ n =>
      simp only [List.set_cons_succ, List.countP_cons]
      have := ih n v
      omega

theorem initialLengths_countP_le (ns mb nu : ℕ) (nodes : List HuffmanNode) :
    (initialLengths ns mb nu nodes).countP (fun l => decide (0 < l)) ≤ nu := by
  unfold initialLengths
  dsimp only
  have main : ∀ (L : List ℕ) (lengths : List ℕ),
      ((L.foldl (fun lengths (i : ℕ) =>
          lengths.set ((nodes.getD i noNode).symbol).toNat
            (if mb < depthOf nodes nodes.length (i : ℤ) then mb
             else depthOf nodes nodes.length (i : ℤ))) lengths).countP
          (fun l => decide (0 < l)))
        ≤ lengths.countP (fun l => decide (0 < l)) + L.length := by
    intro L
    induction L with
    | nil => intro lengths; simp
    | cons a rest ih =>
      intro lengths
      simp only [List.foldl_cons, List.length_cons]
      have h1 := countP_set_le (fun l => decide (0 < l)) lengths
        ((nodes.getD a noNode).symbol).toNat
        (if mb < depthOf nodes nodes.length (a : ℤ) then mb
         else depthOf nodes nodes.length (a : ℤ))
      have h2 := ih (lengths.set ((nodes.getD a noNode).symbol).toNat
        (if mb < depthOf nodes nodes.length (a : ℤ) then mb
         else depthOf nodes nodes.length (a : ℤ)))
      omega
  have hz : (List.replicate ns 0).countP (fun l => decide (0 < l)) = 0 := by
    rw [List.countP_eq_zero]
    intro a ha
    rw [List.eq_of_mem_replicate ha]
    simp
  have := main (List.range nu) (List.replicate ns 0)
  rw [hz, List.length_range] at this
  omega

theorem wrapSub_eq {used d : ℕ} (hu : used < 2 ^ 32) (hd : d ≤ used) :
    (used + 2 ^ 32 - d) % 2 ^ 32 = used - d := by
  have he : used + 2 ^ 32 - d = (used - d) + 2 ^ 32 := by omega
  rw [he, Nat.add_mod_right, Nat.mod_eq_of_lt (by omega)]

theorem range'_split_last {mb : ℕ} (hmb : 1 ≤ mb) :
    List.range' 1 mb = List.range' 1 (mb - 1) ++ [mb] := by
  have h := List.range'_append 1 (mb - 1) 1 1
  rw [one_mul, show 1 + (mb - 1) = mb by omega, List.range'_one] at h
  exact h.symm

theorem usedPure_all_max {mb : ℕ} (hmb : 1 ≤ mb) (counts : List ℕ)
    (hz : ∀ L, 1 ≤ L → L < mb → counts.getD L 0 = 0) :
    usedPure mb counts = counts.getD mb 0 := by
  unfold usedPure
  rw [range'_split_last hmb, List.map_append, List.sum_append]
  have h0 : ((List.range' 1 (mb - 1)).map
      (fun len => counts.getD len 0 * 2 ^ (mb - len))).sum = 0 := by
    apply List.sum_eq_zero
    intro x hx
    rcases List.mem_map.mp hx with ⟨len, hlen, rfl⟩
    rw [List.mem_range'_1] at hlen
    rw [hz len hlen.1 (by omega)]
    ring
  rw [h0]
  simp

theorem rebalanceAux_spec (mb : ℕ) (hmb1 : 1 ≤ mb) (hmb15 : mb ≤ 15) :
    ∀ fuel (counts : List ℕ) (used : ℕ), counts.length = 16 → used ≤ fuel →
      usedPure mb counts ≤ used → used < 2 ^ 32 →
      totalCounts mb counts ≤ 2 ^ mb →
      usedPure mb (rebalanceAux fuel mb counts used).1 ≤ 2 ^ mb ∧
      (rebalanceAux fuel mb counts used).1.length = 16 := by
  intro fuel
  induction fuel with
  | zero =>
    intro counts used h16 hfuel hup _ _
    simp only [rebalanceAux]
    exact ⟨by omega, h16⟩
  | succ fuel ih =>
    intro counts used h16 hfuel hup hu32 htc
    cases hstep : rebalanceStep mb counts used with
    | none =>
      have hred : rebalanceAux (fuel + 1) mb counts used = (counts, used) := by
        simp [rebalanceAux, hstep]
      rw [hred]
      dsimp only
      refine ⟨?_, h16⟩
      unfold rebalanceStep at hstep
      by_cases hg : used ≤ 2 ^ mb
      · omega
      · rw [if_neg hg] at hstep
        cases hf : findShortest mb counts with
        | none =>
          have hz := findShortest_none hf
          rw [usedPure_all_max hmb1 counts hz]
          exact le_trans (totalCounts_term_le mb counts mb hmb1 (le_refl _)) htc
        | some sh =>
          exfalso
          rw [hf] at hstep
          dsimp only at hstep
          by_cases h2 : 2 ≤ counts.getD sh 0
          · rw [if_pos h2] at hstep; exact absurd hstep (by simp)
          · by_cases h1 : counts.getD sh 0 = 1
            · rw [if_neg h2, if_pos h1] at hstep; exact absurd hstep (by simp)
            · rw [if_neg h2, if_neg h1] at hstep; exact absurd hstep (by simp)
    | some p =>
      obtain ⟨c', u'⟩ := p
      have hred : rebalanceAux (fuel + 1) mb counts used = rebalanceAux fuel mb c' u' := by
        simp [rebalanceAux, hstep]
      rw [hred]
      unfold rebalanceStep at hstep
      by_cases hg : used ≤ 2 ^ mb
      · rw [if_pos hg] at hstep; exact absurd hstep (by simp)
      rw [if_neg hg] at hstep
      cases hf : findShortest mb counts with
      | none => rw [hf] at hstep; exact absurd hstep (by simp)
      | some sh =>
        rw [hf] at hstep
        dsimp only at hstep
        obtain ⟨hsh1, hshmb, hpos⟩ := findShortest_spec hf
        have hsh16 : sh < 16 := by omega
        have hsh116 : sh + 1 < 16 := by omega
        have hwmod : (2 : ℕ) ^ (mb - sh) % 2 ^ 32 = 2 ^ (mb - sh) :=
          Nat.mod_eq_of_lt (Nat.pow_lt_pow_right (by norm_num) (by omega))
        have hwmod' : (2 : ℕ) ^ (mb - sh - 1) % 2 ^ 32 = 2 ^ (mb - sh - 1) :=
          Nat.mod_eq_of_lt (Nat.pow_lt_pow_right (by norm_num) (by omega))
        have hww : (2 : ℕ) ^ (mb - sh) = 2 * 2 ^ (mb - sh - 1) := by
          rw [← pow_succ']
          congr 1
          omega
        have hwle : (2 : ℕ) ^ (mb - sh) < used := by
          calc (2 : ℕ) ^ (mb - sh) ≤ 2 ^ (mb - 1) :=
              Nat.pow_le_pow_right (by norm_num) (by omega)
            _ < 2 ^ mb := Nat.pow_lt_pow_right (by norm_num) (by omega)
            _ < used := by omega
        by_cases h2 : 2 ≤ counts.getD sh 0
        · rw [if_pos h2] at hstep
          obtain ⟨hc', hu'⟩ : ((counts.set sh (counts.getD sh 0 - 2)).set (sh + 1)
              (((counts.set sh (counts.getD sh 0 - 2)).getD (sh + 1) 0) + 1) = c')
              ∧ ((used + 2 ^ 32 - 2 ^ (mb - sh) % 2 ^ 32) % 2 ^ 32 = u') := by
            simpa using hstep
          rw [hwmod, wrapSub_eq hu32 (by omega)] at hu'
          subst hc'
          subst hu'
          set A := counts.set sh (counts.getD sh 0 - 2) with hA
          have hA16 : A.length = 16 := by rw [hA]; simp [h16]
          have e1 := usedPure_set mb counts sh (counts.getD sh 0 - 2) (by omega) hsh1
            (by omega)
          rw [← hA] at e1
          have e2 := usedPure_set mb A (sh + 1) (A.getD (sh + 1) 0 + 1) (by omega)
            (by omega) (by omega)
          have exp1 : counts.getD sh 0 * 2 ^ (mb - sh)
              = (counts.getD sh 0 - 2) * 2 ^ (mb - sh) + 2 * 2 ^ (mb - sh) := by
            rw [← add_mul]
            congr 1
            omega
          have exp2 : (A.getD (sh + 1) 0 + 1) * 2 ^ (mb - (sh + 1))
              = A.getD (sh + 1) 0 * 2 ^ (mb - (sh + 1)) + 2 ^ (mb - (sh + 1)) := by
            rw [add_mul, one_mul]
          have hmbsh : mb - (sh + 1) = mb - sh - 1 := by omega
          rw [hmbsh] at e2 exp2
          have t1 := totalCounts_set mb counts sh (counts.getD sh 0 - 2) (by omega) hsh1
            (by omega)
          rw [← hA] at t1
          have t2 := totalCounts_set mb A (sh + 1) (A.getD (sh + 1) 0 + 1) (by omega)
            (by omega) (by omega)
          have hterm := usedPure_term_le mb counts sh hsh1 (by omega)
          have hwpos : (1 : ℕ) ≤ 2 ^ (mb - sh) := Nat.one_le_two_pow
          have hwpos' : (1 : ℕ) ≤ 2 ^ (mb - sh - 1) := Nat.one_le_two_pow
          apply ih
          · simp [hA16]
          · omega
          · omega
          · omega
          · omega
        · have h1 : counts.getD sh 0 = 1 := by omega
          rw [if_neg h2, if_pos h1] at hstep
          obtain ⟨hc', hu'⟩ : ((counts.set sh (counts.getD sh 0 - 1)).set (sh + 1)
              (((counts.set sh (counts.getD sh 0 - 1)).getD (sh + 1) 0) + 1) = c')
              ∧ ((used + 2 ^ 32 - 2 ^ (mb - sh - 1) % 2 ^ 32) % 2 ^ 32 = u') := by
            simpa using hstep
          rw [hwmod', wrapSub_eq hu32 (by omega)] at hu'
          subst hc'
          subst hu'
          set A := counts.set sh (counts.getD sh 0 - 1) with hA
          have hA16 : A.length = 16 := by rw [hA]; simp [h16]
          have e1 := usedPure_set mb counts sh (counts.getD sh 0 - 1) (by omega) hsh1
            (by omega)
          rw [← hA] at e1
          have e2 := usedPure_set mb A (sh + 1) (A.getD (sh + 1) 0 + 1) (by omega)
            (by omega) (by omega)
          have exp1 : counts.getD sh 0 * 2 ^ (mb - sh)
              = (counts.getD sh 0 - 1) * 2 ^ (mb - sh) + 2 ^ (mb - sh) := by
            rw [← add_one_mul]
            congr 1
            omega
          have exp2 : (A.getD (sh + 1) 0 + 1) * 2 ^ (mb - (sh + 1))
              = A.getD (sh + 1) 0 * 2 ^ (mb - (sh + 1)) + 2 ^ (mb - (sh + 1)) := by
            rw [add_mul, one_mul]
          have hmbsh : mb - (sh + 1) = mb - sh - 1 := by omega
          rw [hmbsh] at e2 exp2
          have t1 := totalCounts_set mb counts sh (counts.getD sh 0 - 1) (by omega) hsh1
            (by omega)
          rw [← hA] at t1
          have t2 := totalCounts_set mb A (sh + 1) (A.getD (sh + 1) 0 + 1) (by omega)
            (by omega) (by omega)
          have hterm := usedPure_term_le mb counts sh hsh1 (by omega)
          have hwpos : (1 : ℕ) ≤ 2 ^ (mb - sh) := Nat.one_le_two_pow
          have hwpos' : (1 : ℕ) ≤ 2 ^ (mb - sh - 1) := Nat.one_le_two_pow
          apply ih
          · simp [hA16]
          · omega
          · omega
          · omega
          · omega

theorem kraftNum_replicate_zero (mb n : ℕ) : kraftNum mb (List.replicate n 0) = 0 := by
  induction n with
  | zero => rfl
  | succ n ih => simpa [List.replicate_succ, kraftNum] using ih

theorem kraftNum_set_le (mb : ℕ) :
    ∀ (l : List ℕ) (p v : ℕ), 0 < v → v ≤ mb →
      kraftNum mb (l.set p v) ≤ kraftNum mb l + 2 ^ (mb - v) := by
  intro l
  induction l with
  | nil => intro p v _ _; simp [kraftNum]
  | cons a rest ih =>
    intro p v hv hvm
    cases p with
    | zero =>
      simp only [List.set_cons_zero, kraftNum, if_pos (And.intro hv hvm)]
      have h := Nat.zero_le (if 0 < a ∧ a ≤ mb then 2 ^ (mb - a) else 0)
      omega
    | succ p =>
      simp only [List.set_cons_succ, kraftNum]
      have := ih p v hv hvm
      omega

theorem reassign_kraft (mb num_used num_symbols : ℕ) (nodes : List HuffmanNode)
    (counts : List ℕ) (h16 : counts.length = 16) (hmb15 : mb ≤ 15) :
    kraftNum mb (reassignLengths mb num_used num_symbols nodes counts).1
      ≤ usedPure mb counts := by
  unfold reassignLengths
  have h := foldl_invariant
    (fun (st : List ℕ × List ℕ) (i : ℕ) =>
      match findAvailLen mb st.2 with
      | none => st
      | some len =>
        (st.1.set ((nodes.getD i noNode).symbol).toNat len,
          st.2.set len (st.2.getD len 0 - 1)))
    (fun st => kraftNum mb st.1 + usedPure mb st.2 ≤ usedPure mb counts ∧
      st.2.length = 16)
    (List.range num_used).reverse
    (List.replicate num_symbols 0, counts)
    (by refine ⟨?_, h16⟩
        dsimp only
        rw [kraftNum_replicate_zero]
        omega)
    ?_
  · exact le_trans (Nat.le_add_right _ _) h.1
  · intro st a hst
    dsimp only
    cases hf : findAvailLen mb st.2 with
    | none => dsimp only; exact hst
    | some len =>
      dsimp only
      obtain ⟨hl1, hlm, hlpos⟩ := findAvailLen_spec hf
      constructor
      · have e := usedPure_set mb st.2 len (st.2.getD len 0 - 1) (by omega) hl1 hlm
        have exp : st.2.getD len 0 * 2 ^ (mb - len)
            = (st.2.getD len 0 - 1) * 2 ^ (mb - len) + 2 ^ (mb - len) := by
          rw [← add_one_mul]
          congr 1
          omega
        have hk := kraftNum_set_le mb st.1 ((nodes.getD a noNode).symbol).toNat len
          (by omega) hlm
        have hterm := usedPure_term_le mb st.2 len hl1 hlm
        have hst1 := hst.1
        omega
      · simpa using hst.2

theorem kraftLenQ_eq_kraftNum (mb : ℕ) :
    ∀ lengths : List ℕ, (∀ x ∈ lengths, x ≤ mb) →
      kraftLenQ lengths = (kraftNum mb lengths : ℚ) / 2 ^ mb := by
  intro lengths
  induction lengths with
  | nil => intro _; simp [kraftLenQ, kraftNum]
  | cons l rest ih =>
    intro hb
    have hl : l ≤ mb := hb l (List.mem_cons_self _ _)
    have hr := ih (fun x hx => hb x (List.mem_cons_of_mem _ hx))
    simp only [kraftLenQ, kraftNum, hr]
    by_cases h0 : 0 < l
    · rw [if_pos h0, if_pos (And.intro h0 hl)]
      have hpow : (2 : ℚ) ^ (mb - l) * 2 ^ l = 2 ^ mb := by
        rw [← pow_add]
        congr 1
        omega
      have key : (1 : ℚ) / 2 ^ l = (2 : ℚ) ^ (mb - l) / 2 ^ mb := by
        rw [div_eq_div_iff (by positivity) (by positivity), one_mul, hpow]
      rw [key, div_add_div_same]
      push_cast
      ring
    · rw [if_neg h0, if_neg (by omega : ¬(0 < l ∧ l ≤ mb))]
      push_cast
      ring

theorem kraftSumQ_map_snd_assign :
    ∀ (lengths nc : List ℕ),
      kraftSumQ ((assignCodesAux lengths nc).map Prod.snd) = kraftLenQ lengths := by
  intro lengths
  induction lengths with
  | nil => intro nc; rfl
  | cons l rest ih =>
    intro nc
    by_cases h : 0 < l
    · simp only [assignCodesAux, if_pos h, List.map_cons, kraftSumQ, kraftLenQ, ih]
    · simp only [assignCodesAux, if_neg h, List.map_cons, kraftSumQ, kraftLenQ, ih]
      norm_num

theorem assign_snd_length_le (mb : ℕ) :
    ∀ (lengths nc : List ℕ), (∀ x ∈ lengths, x ≤ mb) →
      ∀ c ∈ (assignCodesAux lengths nc).map Prod.snd, c.length ≤ mb := by
  intro lengths
  induction lengths with
  | nil => intro nc _ c hc; simp [assignCodesAux] at hc
  | cons l rest ih =>
    intro nc hb c hc
    have hl : l ≤ mb := hb l (List.mem_cons_self _ _)
    have hbrest : ∀ x ∈ rest, x ≤ mb := fun x hx => hb x (List.mem_cons_of_mem _ hx)
    by_cases h : 0 < l
    · simp only [assignCodesAux, if_pos h, List.map_cons] at hc
      rcases List.mem_cons.mp hc with rfl | hc'
      · exact hl
      · exact ih _ hbrest c hc'
    · simp only [assignCodesAux, if_neg h, List.map_cons] at hc
      rcases List.mem_cons.mp hc with rfl | hc'
      · simp
      · exact ih _ hbrest c hc'

theorem kraftSumQ_set (cs : List HuffmanCode) :
    ∀ (p : ℕ) (c : HuffmanCode), p < cs.length →
      kraftSumQ (cs.set p c)
          + (if 0 < (cs.getD p ⟨0, 0⟩).length
            then (1 : ℚ) / 2 ^ (cs.getD p ⟨0, 0⟩).length else 0)
        = kraftSumQ cs + (if 0 < c.length then (1 : ℚ) / 2 ^ c.length else 0) := by
  induction cs with
  | nil => intro p c hp; simp at hp
  | cons a rest ih =>
    intro p c hp
    cases p with
    | zero =>
      simp only [List.set_cons_zero, List.getD_cons_zero, kraftSumQ]
      ring
    | succ p =>
      simp only [List.set_cons_succ, List.getD_cons_succ, kraftSumQ]
      have := ih p c (by simpa using hp)
      linarith

theorem kraftSumQ_replicate_zero (n : ℕ) :
    kraftSumQ (List.replicate n ⟨0, 0⟩) = 0 := by
  induction n with
  | zero => rfl
  | succ n ih => simpa [List.replicate_succ, kraftSumQ] using ih

/-- Kraft-numerator bound for the full general-path length pipeline
(histogram, wrap-free `used`, rebalancing, reassignment): with at most
`2 ^ max_bits` used symbols the final lengths satisfy
`Σ 2 ^ (max_bits - length) ≤ 2 ^ max_bits`. -/
theorem pipeline_kraftNum_le (mb : ℕ) (hmb1 : 1 ≤ mb) (hmb15 : mb ≤ 15)
    (nu ns : ℕ) (nodes : List HuffmanNode) (hcount : nu ≤ 2 ^ mb) :
    kraftNum mb ((reassignLengths mb nu ns nodes
      ((rebalance mb (countsOf mb (initialLengths ns mb nu nodes))
        (usedOf mb (countsOf mb (initialLengths ns mb nu nodes)))).1)).1) ≤ 2 ^ mb := by
  have htc0 : totalCounts mb (countsOf mb (initialLengths ns mb nu nodes)) ≤ 2 ^ mb := by
    have h1 := countsOf_total_le mb hmb15 (initialLengths ns mb nu nodes)
    have h2 := initialLengths_countP_le ns mb nu nodes
    omega
  have hup32 : usedPure mb (countsOf mb (initialLengths ns mb nu nodes)) < 2 ^ 32 := by
    have h1 := usedPure_le mb (countsOf mb (initialLengths ns mb nu nodes))
    have h3 : (2 : ℕ) ^ (mb - 1) ≤ 2 ^ 14 := Nat.pow_le_pow_right (by norm_num) (by omega)
    have h2 : (2 : ℕ) ^ mb ≤ 2 ^ 15 := Nat.pow_le_pow_right (by norm_num) hmb15
    have h4 : totalCounts mb (countsOf mb (initialLengths ns mb nu nodes)) * 2 ^ (mb - 1)
        ≤ 2 ^ 15 * 2 ^ 14 := Nat.mul_le_mul (by omega) h3
    calc usedPure mb _ ≤ _ := h1
      _ ≤ 2 ^ 15 * 2 ^ 14 := h4
      _ < 2 ^ 32 := by norm_num
  have hused0 : usedOf mb (countsOf mb (initialLengths ns mb nu nodes))
      = usedPure mb (countsOf mb (initialLengths ns mb nu nodes)) :=
    usedOf_eq_usedPure mb _ hup32
  have happ := rebalanceAux_spec mb hmb1 hmb15
    (usedOf mb (countsOf mb (initialLengths ns mb nu nodes)))
    (countsOf mb (initialLengths ns mb nu nodes))
    (usedOf mb (countsOf mb (initialLengths ns mb nu nodes)))
    (countsOf_length mb _) (le_refl _) (by rw [hused0]) (by rw [hused0]; exact hup32)
    htc0
  have hr := reassign_kraft mb nu ns nodes
    ((rebalance mb (countsOf mb (initialLengths ns mb nu nodes))
      (usedOf mb (countsOf mb (initialLengths ns mb nu nodes)))).1)
    happ.2 hmb15
  exact le_trans hr happ.1

/-- C1 (amended): every successful `huffman_build_codes` run produces
only lengths in `0..=max_bits`, and whenever the number of used symbols
is at most `2 ^ max_bits` the Kraft sum `Σ 2 ^ (-length)` over used
symbols is at most 1.  (As stated the claim is false: the Kraft bound
fails for more than `2 ^ max_bits` used symbols and the equality clause
fails whenever depth-capping triggers rebalancing - see
`c1_counterexample`.) -/
theorem c1_kraft (freqs : List ℕ) (mb : ℕ) (cs : List HuffmanCode)
    (h : huffman_build_codes freqs mb = some cs) :
    (∀ c ∈ cs, c.length ≤ mb) ∧
    (freqs.countP (fun f => decide (0 < f)) ≤ 2 ^ mb → kraftSumQ cs ≤ 1) := by
  by_cases hv : freqs.length = 0 ∨ mb < 1 ∨ 15 < mb
  · rw [huffman_build_codes, huffman_build_codes_pairs, if_pos hv] at h
    exact absurd h (by simp)
  have hv2 := hv
  push_neg at hv2
  obtain ⟨hne, hmb1, hmb15⟩ := hv2
  by_cases hc0 : freqs.countP (fun f => decide (0 < f)) = 0
  · by_cases hn : 2 ≤ freqs.length
    · rw [huffman_build_codes, huffman_build_codes_pairs, if_neg hv, if_pos hc0,
        if_pos hn] at h
      rw [Option.map_some', map_snd_pairsOfCodes] at h
      obtain rfl := Option.some_inj.mp h
      constructor
      · intro c hc
        rcases List.mem_or_eq_of_mem_set hc with hc1 | rfl
        · rcases List.mem_or_eq_of_mem_set hc1 with hc2 | rfl
          · rw [List.eq_of_mem_replicate hc2]; simp
          · simp; omega
        · simp; omega
      · intro _
        have hk0 := kraftSumQ_replicate_zero freqs.length
        have k1 := kraftSumQ_set (List.replicate freqs.length (⟨0, 0⟩ : HuffmanCode))
          0 ⟨0, 1⟩ (by simp; omega)
        rw [getD_replicate _ _ (by omega), hk0] at k1
        have k2 := kraftSumQ_set ((List.replicate freqs.length
          (⟨0, 0⟩ : HuffmanCode)).set 0 ⟨0, 1⟩) 1 ⟨1, 1⟩ (by simp; omega)
        rw [getD_set_ne _ _ _ (by omega), getD_replicate _ _ (by omega)] at k2
        norm_num at k1 k2
        linarith
    · rw [huffman_build_codes, huffman_build_codes_pairs, if_neg hv, if_pos hc0,
        if_neg hn] at h
      rw [Option.map_some', map_snd_pairsOfCodes] at h
      obtain rfl := Option.some_inj.mp h
      have hn1 : freqs.length = 1 := by omega
      rw [hn1]
      constructor
      · intro c hc
        rcases List.mem_or_eq_of_mem_set hc with hc1 | rfl
        · rw [List.eq_of_mem_replicate hc1]; simp
        · simp; omega
      · intro _
        norm_num [kraftSumQ]
  by_cases hc1 : freqs.countP (fun f => decide (0 < f)) = 1
  · have hfind : freqs.findIdx (fun f => decide (0 < f)) < freqs.length := by
      apply List.findIdx_lt_length_of_exists
      have hpos : 0 < freqs.countP (fun f => decide (0 < f)) := by omega
      simpa using List.countP_pos_iff.mp hpos
    rw [huffman_build_codes, huffman_build_codes_pairs, if_neg hv, if_neg hc0,
      if_pos hc1] at h
    rw [Option.map_some', map_snd_pairsOfCodes] at h
    obtain rfl := Option.some_inj.mp h
    set s := freqs.findIdx (fun f => decide (0 < f)) with hs
    have hsd : (if s = 0 then 1 else 0) ≠ s := by split <;> omega
    by_cases hd : (if s = 0 then 1 else 0) < freqs.length
    · rw [if_pos hd]
      constructor
      · intro c hc
        rcases List.mem_or_eq_of_mem_set hc with hc1' | rfl
        · rcases List.mem_or_eq_of_mem_set hc1' with hc2 | rfl
          · rw [List.eq_of_mem_replicate hc2]; simp
          · simp; omega
        · simp; omega
      · intro _
        have hk0 := kraftSumQ_replicate_zero freqs.length
        have k1 := kraftSumQ_set (List.replicate freqs.length (⟨0, 0⟩ : HuffmanCode))
          s ⟨0, 1⟩ (by simpa using hfind)
        rw [getD_replicate _ _ hfind, hk0] at k1
        have k2 := kraftSumQ_set ((List.replicate freqs.length
          (⟨0, 0⟩ : HuffmanCode)).set s ⟨0, 1⟩) (if s = 0 then 1 else 0) ⟨1, 1⟩
          (by simpa using hd)
        rw [getD_set_ne _ _ _ (fun he => hsd he.symm), getD_replicate _ _ hd] at k2
        norm_num at k1 k2
        linarith
    · rw [if_neg hd]
      constructor
      · intro c hc
        rcases List.mem_or_eq_of_mem_set hc with hc1' | rfl
        · rw [List.eq_of_mem_replicate hc1']; simp
        · simp; omega
      · intro _
        have hk0 := kraftSumQ_replicate_zero freqs.length
        have k1 := kraftSumQ_set (List.replicate freqs.length (⟨0, 0⟩ : HuffmanCode))
          s ⟨0, 1⟩ (by simpa using hfind)
        rw [getD_replicate _ _ hfind, hk0] at k1
        norm_num at k1
        linarith
  rw [huffman_build_codes, huffman_build_codes_pairs, if_neg hv, if_neg hc0,
    if_neg hc1] at h
  dsimp only at h
  rw [Option.map_some'] at h
  obtain rfl := Option.some_inj.mp h
  simp only [huffmanCodesFromLengths]
  have hLbound := reassignLengths_bounded mb (freqs.countP (fun f => decide (0 < f)))
    freqs.length (buildTreeNodes (leavesOf freqs 0) (freqs.countP (fun f => decide (0 < f))))
    ((rebalance mb (countsOf mb (initialLengths freqs.length mb
        (freqs.countP (fun f => decide (0 < f)))
        (buildTreeNodes (leavesOf freqs 0) (freqs.countP (fun f => decide (0 < f))))))
      (usedOf mb (countsOf mb (initialLengths freqs.length mb
        (freqs.countP (fun f => decide (0 < f)))
        (buildTreeNodes (leavesOf freqs 0)
          (freqs.countP (fun f => decide (0 < f)))))))).1)
  constructor
  · exact assign_snd_length_le mb _ _ hLbound
  · intro hcount
    rw [kraftSumQ_map_snd_assign, kraftLenQ_eq_kraftNum mb _ hLbound,
      div_le_one (by positivity)]
    have hfinal := pipeline_kraftNum_le mb hmb1 hmb15
      (freqs.countP (fun f => decide (0 < f))) freqs.length
      (buildTreeNodes (leavesOf freqs 0) (freqs.countP (fun f => decide (0 < f)))) hcount
    exact_mod_cast hfinal

/-- Witness for C1 at `[5,1,1,1]`, `max_bits = 15`. -/
theorem c1_witness :
    huffman_build_codes [5, 1, 1, 1] 15
      = some [⟨0, 1⟩, ⟨3, 3⟩, ⟨7, 3⟩, ⟨1, 2⟩] ∧
    ([5, 1, 1, 1] : List ℕ).countP (fun f => decide (0 < f)) ≤ 2 ^ 15 ∧
    ((∀ c ∈ [(⟨0, 1⟩ : HuffmanCode), ⟨3, 3⟩, ⟨7, 3⟩, ⟨1, 2⟩], c.length ≤ 15) ∧
      kraftSumQ [⟨0, 1⟩, ⟨3, 3⟩, ⟨7, 3⟩, ⟨1, 2⟩] ≤ 1) := by
  refine ⟨by decide, by decide, ?_⟩
  have h := c1_kraft [5, 1, 1, 1] 15 [⟨0, 1⟩, ⟨3, 3⟩, ⟨7, 3⟩, ⟨1, 2⟩] (by decide)
  exact ⟨h.1, h.2 (by decide)⟩

/-! ## Absence of uint16 wrap in the canonical-code phase (C5)

Under the Kraft bound established for C1, every value that flows
through the `uint16_t` histogram `bl_count`, the `uint16_t` accumulator
`code` and the `uint16_t` table `next_code` stays at most `2 ^ 15`, so
none of the `% 65536` truncations in the canonical-code phase ever
discards information. -/

theorem count_le_countP_pos (l : List ℕ) (j : ℕ) (hj : 1 ≤ j) :
    l.count j ≤ l.countP (fun x => decide (0 < x)) := by
  simp only [List.count]
  apply List.countP_mono_left
  intro x _ hx
  simp only [beq_iff_eq] at hx
  simp
  omega

theorem countP_le_kraftNum (mb : ℕ) :
    ∀ lengths : List ℕ, (∀ x ∈ lengths, x ≤ mb) →
      lengths.countP (fun x => decide (0 < x)) ≤ kraftNum mb lengths := by
  intro lengths
  induction lengths with
  | nil => intro _; simp [kraftNum]
  | cons l rest ih =>
    intro hb
    have hl : l ≤ mb := hb l (List.mem_cons_self _ _)
    have hr := ih (fun x hx => hb x (List.mem_cons_of_mem _ hx))
    simp only [List.countP_cons, kraftNum]
    by_cases h0 : 0 < l
    · rw [if_pos (And.intro h0 hl)]
      have h1 : 1 ≤ 2 ^ (mb - l) := Nat.one_le_two_pow
      have h2 : decide (0 < l) = true := by simpa using h0
      rw [h2, if_pos rfl]
      omega
    · rw [if_neg (by omega : ¬(0 < l ∧ l ≤ mb))]
      have h2 : decide (0 < l) = false := by simpa using h0
      rw [h2]
      simp
      omega

theorem kraftNum_fifteen (mb : ℕ) (hmb : mb ≤ 15) :
    ∀ lengths : List ℕ, (∀ x ∈ lengths, x ≤ mb) →
      kraftNum 15 lengths = 2 ^ (15 - mb) * kraftNum mb lengths := by
  intro lengths
  induction lengths with
  | nil => intro _; simp [kraftNum]
  | cons l rest ih =>
    intro hb
    have hl : l ≤ mb := hb l (List.mem_cons_self _ _)
    have hr := ih (fun x hx => hb x (List.mem_cons_of_mem _ hx))
    simp only [kraftNum]
    by_cases h0 : 0 < l
    · have hpow : (2:ℕ) ^ (15 - mb) * 2 ^ (mb - l) = 2 ^ (15 - l) := by
        rw [← pow_add]
        congr 1
        omega
      rw [if_pos (And.intro h0 (by omega : l ≤ 15)), if_pos (And.intro h0 hl),
        hr, Nat.mul_add, hpow]
    · rw [if_neg (by omega : ¬(0 < l ∧ l ≤ 15)), if_neg (by omega : ¬(0 < l ∧ l ≤ mb)),
        hr]
      ring

/-- Partial weighted sums `Σ_(len ≤ k) bl_count[len] * 2 ^ (15 - len)`
of the histogram, used to bound the canonical-code accumulator. -/
def blW (bl : List ℕ) (k : ℕ) : ℕ :=
  ((List.range' 1 k).map (fun len => bl.getD len 0 * 2 ^ (15 - len))).sum

theorem blW_fifteen (bl : List ℕ) : blW bl 15 = usedPure 15 bl := rfl

theorem blW_succ (bl : List ℕ) (k : ℕ) :
    blW bl (k + 1) = blW bl k + bl.getD (k + 1) 0 * 2 ^ (15 - (k + 1)) := by
  unfold blW
  rw [range'_split_last (by omega : 1 ≤ k + 1), show k + 1 - 1 = k by omega,
    List.map_append, List.sum_append]
  simp

theorem blW_le (bl : List ℕ) : ∀ j k : ℕ, k ≤ j → blW bl k ≤ blW bl j := by
  intro j
  induction j with
  | zero => intro k hk; rw [Nat.le_zero.mp hk]
  | succ j ih =>
    intro k hk
    by_cases h : k = j + 1
    · rw [h]
    · have h1 := ih k (by omega)
      rw [blW_succ]
      omega

theorem usedPure_replicate_zero (mb : ℕ) (hmb : mb ≤ 15) :
    usedPure mb (List.replicate 16 0) = 0 := by
  unfold usedPure
  apply List.sum_eq_zero
  intro x hx
  rcases List.mem_map.mp hx with ⟨len, hlen, rfl⟩
  rw [List.mem_range'_1] at hlen
  rw [getD_replicate _ _ (by omega)]
  ring

theorem bl_count_fold (mb : ℕ) (hmb : mb ≤ 15) :
    ∀ (L acc F : List ℕ),
      F = L.foldl
        (fun bl l => if 0 < l then bl.set l ((bl.getD l 0 + 1) % 65536) else bl) acc →
      acc.length = 16 →
      (∀ x ∈ L, x ≤ mb) →
      (∀ j, 1 ≤ j → j ≤ 15 → acc.getD j 0 + L.count j ≤ 2 ^ 15) →
      F.length = 16 ∧ F.getD 0 0 = acc.getD 0 0 ∧
      (∀ j, 1 ≤ j → j ≤ 15 → F.getD j 0 = acc.getD j 0 + L.count j) ∧
      usedPure 15 F = usedPure 15 acc + kraftNum 15 L := by
  intro L
  induction L with
  | nil =>
    intro acc F hF h16 _ _
    subst hF
    refine ⟨h16, rfl, ?_, ?_⟩
    · intro j _ _
      simp
    · simp [kraftNum]
  | cons l T ih =>
    intro acc F hF h16 hbound hbud
    have hl : l ≤ mb := hbound l (List.mem_cons_self _ _)
    have hbT : ∀ x ∈ T, x ≤ mb := fun x hx => hbound x (List.mem_cons_of_mem _ hx)
    rw [List.foldl_cons] at hF
    by_cases h0 : 0 < l
    · rw [if_pos h0] at hF
      have hbudl := hbud l (by omega) (by omega)
      have hcnt : (l :: T).count l = T.count l + 1 := List.count_cons_self l T
      rw [hcnt] at hbudl
      have hid : (acc.getD l 0 + 1) % 65536 = acc.getD l 0 + 1 :=
        Nat.mod_eq_of_lt (by omega)
      have hlen' : (acc.set l ((acc.getD l 0 + 1) % 65536)).length = 16 := by
        simp [h16]
      have hbud' : ∀ j, 1 ≤ j → j ≤ 15 →
          (acc.set l ((acc.getD l 0 + 1) % 65536)).getD j 0 + T.count j ≤ 2 ^ 15 := by
        intro j hj1 hj15
        by_cases heq : l = j
        · subst heq
          rw [getD_set_self _ _ _ _ (by omega), hid]
          omega
        · rw [getD_set_ne _ _ _ heq]
          have h := hbud j hj1 hj15
          rw [List.count_cons_of_ne (fun he => heq he.symm)] at h
          exact h
      obtain ⟨f1, f2, f3, f4⟩ := ih (acc.set l ((acc.getD l 0 + 1) % 65536)) F hF
        hlen' hbT hbud'
      refine ⟨f1, ?_, ?_, ?_⟩
      · rw [f2, getD_set_ne _ _ _ (by omega)]
      · intro j hj1 hj15
        rw [f3 j hj1 hj15]
        by_cases heq : l = j
        · subst heq
          rw [getD_set_self _ _ _ _ (by omega), hid, hcnt]
          omega
        · rw [getD_set_ne _ _ _ heq, List.count_cons_of_ne (fun he => heq he.symm)]
      · rw [f4]
        have hset := usedPure_set 15 acc l ((acc.getD l 0 + 1) % 65536) (by omega)
          (by omega) (by omega)
        have hVB : ((acc.getD l 0 + 1) % 65536) * 2 ^ (15 - l)
            = acc.getD l 0 * 2 ^ (15 - l) + 2 ^ (15 - l) := by
          rw [hid, add_one_mul]
        rw [hVB] at hset
        have hkn : kraftNum 15 (l :: T) = 2 ^ (15 - l) + kraftNum 15 T := by
          simp only [kraftNum]
          rw [if_pos (And.intro h0 (by omega : l ≤ 15))]
        rw [hkn]
        omega
    · rw [if_neg h0] at hF
      have hbud' : ∀ j, 1 ≤ j → j ≤ 15 → acc.getD j 0 + T.count j ≤ 2 ^ 15 := by
        intro j hj1 hj15
        have h := hbud j hj1 hj15
        rw [List.count_cons_of_ne (by omega)] at h
        exact h
      obtain ⟨f1, f2, f3, f4⟩ := ih acc F hF h16 hbT hbud'
      refine ⟨f1, f2, ?_, ?_⟩
      · intro j hj1 hj15
        rw [f3 j hj1 hj15, List.count_cons_of_ne (by omega)]
      · rw [f4]
        have hkn : kraftNum 15 (l :: T) = kraftNum 15 T := by
          simp only [kraftNum]
          rw [if_neg (by omega)]
          omega
        rw [hkn]

/-- With fewer than `2 ^ 15` used symbols the `uint16_t` histogram
increments never wrap: `bl_count[j]` records the exact number of codes
of length `j`, and the weighted histogram sum is the Kraft numerator of
the length array. -/
theorem bl_countOf_spec (mb : ℕ) (hmb : mb ≤ 15) (lengths : List ℕ)
    (hbound : ∀ x ∈ lengths, x ≤ mb)
    (htot : lengths.countP (fun x => decide (0 < x)) ≤ 2 ^ 15) :
    (bl_countOf lengths).length = 16 ∧ (bl_countOf lengths).getD 0 0 = 0 ∧
    (∀ j, 1 ≤ j → j ≤ 15 → (bl_countOf lengths).getD j 0 = lengths.count j) ∧
    usedPure 15 (bl_countOf lengths) = kraftNum 15 lengths := by
  have hbud0 : ∀ j, 1 ≤ j → j ≤ 15 →
      (List.replicate 16 0 : List ℕ).getD j 0 + lengths.count j ≤ 2 ^ 15 := by
    intro j hj1 hj15
    rw [getD_replicate _ _ (by omega)]
    have h1 := count_le_countP_pos lengths j hj1
    omega
  obtain ⟨f1, f2, f3, f4⟩ := bl_count_fold mb hmb lengths (List.replicate 16 0)
    (bl_countOf lengths) rfl (by simp) hbound hbud0
  refine ⟨f1, ?_, ?_, ?_⟩
  · rw [f2, getD_replicate _ _ (by omega)]
  · intro j hj1 hj15
    rw [f3 j hj1 hj15, getD_replicate _ _ (by omega)]
    omega
  · rw [f4, usedPure_replicate_zero 15 (by omega)]
    omega

/-- Invariant of the `next_code` fold: as long as the weighted
histogram sum is at most `2 ^ 15` (Kraft), the running `uint16_t`
accumulator `code` never wraps and every stored entry satisfies
`next_code[b] + bl_count[b] ≤ 2 ^ b`. -/
theorem next_code_fold (bl : List ℕ) (hW : usedPure 15 bl ≤ 2 ^ 15)
    (hbl0 : bl.getD 0 0 = 0) :
    ∀ (n s : ℕ) (nc : List ℕ) (code : ℕ), s + n = 16 → 1 ≤ s → nc.length = 16 →
      code * 2 ^ (16 - s) = blW bl (s - 2) →
      (∀ b, 1 ≤ b → b < s → nc.getD b 0 + bl.getD b 0 ≤ 2 ^ b) →
      ∀ b, 1 ≤ b → b ≤ 15 →
        (((List.range' s n).foldl
          (fun (st : List ℕ × ℕ) bits =>
            (st.1.set bits ((st.2 + bl.getD (bits - 1) 0) * 2 % 65536),
              (st.2 + bl.getD (bits - 1) 0) * 2 % 65536))
          (nc, code)).1.getD b 0) + bl.getD b 0 ≤ 2 ^ b := by
  intro n
  induction n with
  | zero =>
    intro s nc code hs16 hs1 h16 hcode hent b hb1 hb15
    exact hent b hb1 (by omega)
  | succ n ih =>
    intro s nc code hs16 hs1 h16 hcode hent b hb1 hb15
    have hs15 : s ≤ 15 := by omega
    rw [List.range'_succ, List.foldl_cons]
    have hc : ((code + bl.getD (s - 1) 0) * 2) * 2 ^ (15 - s) = blW bl (s - 1) := by
      have h2p : (2 : ℕ) * 2 ^ (15 - s) = 2 ^ (16 - s) := by
        rw [← pow_succ']
        congr 1
        omega
      by_cases hs' : s = 1
      · subst hs'
        have hz : blW bl (1 - 2) = 0 := by norm_num [blW]
        rw [hz] at hcode
        have hc0 : code = 0 := by
          rcases Nat.mul_eq_zero.mp hcode with h | h
          · exact h
          · exact absurd h (by positivity)
        subst hc0
        rw [show (1:ℕ) - 1 = 0 from rfl, hbl0]
        norm_num [blW]
      · have hsplit : blW bl (s - 1)
            = blW bl (s - 2) + bl.getD (s - 1) 0 * 2 ^ (15 - (s - 1)) := by
          have h := blW_succ bl (s - 2)
          rw [show s - 2 + 1 = s - 1 by omega] at h
          exact h
        have hexp : (15 : ℕ) - (s - 1) = 16 - s := by omega
        calc ((code + bl.getD (s - 1) 0) * 2) * 2 ^ (15 - s)
            = (code + bl.getD (s - 1) 0) * (2 * 2 ^ (15 - s)) := by ring
          _ = (code + bl.getD (s - 1) 0) * 2 ^ (16 - s) := by rw [h2p]
          _ = code * 2 ^ (16 - s) + bl.getD (s - 1) 0 * 2 ^ (16 - s) := by ring
          _ = blW bl (s - 2) + bl.getD (s - 1) 0 * 2 ^ (16 - s) := by rw [hcode]
          _ = blW bl (s - 1) := by rw [hsplit, hexp]
    have hCle : (code + bl.getD (s - 1) 0) * 2 ≤ 2 ^ s := by
      have h2 : blW bl (s - 1) ≤ 2 ^ 15 :=
        le_trans (blW_le bl 15 (s - 1) (by omega)) (by rw [blW_fifteen]; exact hW)
      have h3 : (2:ℕ) ^ s * 2 ^ (15 - s) = 2 ^ 15 := by
        rw [← pow_add]
        congr 1
        omega
      apply Nat.le_of_mul_le_mul_right _ (show 0 < 2 ^ (15 - s) by positivity)
      rw [hc, h3]
      exact h2
    have hid : (code + bl.getD (s - 1) 0) * 2 % 65536
        = (code + bl.getD (s - 1) 0) * 2 := by
      apply Nat.mod_eq_of_lt
      have h2 : (2:ℕ) ^ s ≤ 2 ^ 15 := Nat.pow_le_pow_right (by norm_num) hs15
      omega
    have hcode' : ((code + bl.getD (s - 1) 0) * 2 % 65536) * 2 ^ (16 - (s + 1))
        = blW bl (s + 1 - 2) := by
      rw [hid, show 16 - (s + 1) = 15 - s by omega, show s + 1 - 2 = s - 1 by omega]
      exact hc
    have hent' : ∀ b', 1 ≤ b' → b' < s + 1 →
        (nc.set s ((code + bl.getD (s - 1) 0) * 2 % 65536)).getD b' 0 + bl.getD b' 0
          ≤ 2 ^ b' := by
      intro b' hb'1 hb's
      by_cases heq : b' = s
      · subst heq
        rw [getD_set_self _ _ _ _ (by omega), hid]
        have hsplit2 : blW bl b' = blW bl (b' - 1) + bl.getD b' 0 * 2 ^ (15 - b') := by
          have h := blW_succ bl (b' - 1)
          rw [show b' - 1 + 1 = b' by omega] at h
          exact h
        have h2 : blW bl b' ≤ 2 ^ 15 :=
          le_trans (blW_le bl 15 b' (by omega)) (by rw [blW_fifteen]; exact hW)
        have h3 : (2:ℕ) ^ b' * 2 ^ (15 - b') = 2 ^ 15 := by
          rw [← pow_add]
          congr 1
          omega
        apply Nat.le_of_mul_le_mul_right _ (show 0 < 2 ^ (15 - b') by positivity)
        rw [add_mul, hc, h3, ← hsplit2]
        exact h2
      · rw [getD_set_ne _ _ _ (fun he => heq he.symm)]
        exact hent b' hb'1 (by omega)
    exact ih (s + 1) (nc.set s ((code + bl.getD (s - 1) 0) * 2 % 65536))
      ((code + bl.getD (s - 1) 0) * 2 % 65536) (by omega) (by omega) (by simp [h16])
      hcode' hent' b hb1 hb15

/-- Under the Kraft bound the stored `next_code` entries satisfy
`next_code[b] + bl_count[b] ≤ 2 ^ b ≤ 2 ^ 15`: no `uint16_t`
truncation ever fires in the `next_code` construction, and the
assignment pass has enough headroom for all its increments. -/
theorem next_codeOf_spec (bl : List ℕ) (hW : usedPure 15 bl ≤ 2 ^ 15)
    (hbl0 : bl.getD 0 0 = 0) :
    ∀ b, 1 ≤ b → b ≤ 15 → (next_codeOf bl).getD b 0 + bl.getD b 0 ≤ 2 ^ b := by
  intro b hb1 hb15
  unfold next_codeOf
  exact next_code_fold bl hW hbl0 15 1 (List.replicate 16 0) 0 (by omega) (by omega)
    (by simp) (by norm_num [blW]) (by intro b' h1 h2; omega) b hb1 hb15

/-- C5 (amended): for every successful run of `huffman_build_codes`
whose input does not take the single-used-symbol degenerate path and
has at most `2 ^ max_bits` used symbols (the same shield as C1: the
Kraft bound it yields keeps every `uint16_t` canonical-code counter
at most `2 ^ 15`, so none of them wraps), among symbols with the same
positive code length the pre-reversal canonical code values (the
`next_code[len]` values, first components of the produced pairs)
strictly increase with the symbol index. -/
theorem c5_canonical_increasing (freqs : List ℕ) (mb : ℕ) (prs : List (ℕ × HuffmanCode))
    (h : huffman_build_codes_pairs freqs mb = some prs)
    (hnot1 : freqs.countP (fun f => decide (0 < f)) ≠ 1)
    (hcnt : freqs.countP (fun f => decide (0 < f)) ≤ 2 ^ mb)
    (i j : ℕ) (hij : i < j) (hj : j < prs.length)
    (hlen : (prs.getD i defPair).2.length = (prs.getD j defPair).2.length)
    (hpos : 0 < (prs.getD i defPair).2.length) :
    (prs.getD i defPair).1 < (prs.getD j defPair).1 := by
  by_cases hv : freqs.length = 0 ∨ mb < 1 ∨ 15 < mb
  · rw [huffman_build_codes_pairs, if_pos hv] at h
    exact absurd h (by simp)
  by_cases hc0 : freqs.countP (fun f => decide (0 < f)) = 0
  · by_cases hn : 2 ≤ freqs.length
    · rw [huffman_build_codes_pairs, if_neg hv, if_pos hc0, if_pos hn] at h
      obtain rfl := Option.some_inj.mp h
      have hXlen : (((List.replicate freqs.length (⟨0, 0⟩ : HuffmanCode)).set 0
          ⟨0, 1⟩).set 1 ⟨1, 1⟩).length = freqs.length := by simp
      rw [pairsOfCodes_length, hXlen] at hj
      by_cases hj2 : 2 ≤ j
      · exfalso
        have hzero : (((List.replicate freqs.length (⟨0, 0⟩ : HuffmanCode)).set 0
            ⟨0, 1⟩).set 1 ⟨1, 1⟩).getD j ⟨0, 0⟩ = ⟨0, 0⟩ := by
          rw [getD_set_ne _ _ _ (by omega), getD_set_ne _ _ _ (by omega)]
          exact getD_replicate _ _ hj
        have hlenj : ((pairsOfCodes (((List.replicate freqs.length
            (⟨0, 0⟩ : HuffmanCode)).set 0 ⟨0, 1⟩).set 1 ⟨1, 1⟩)).getD j defPair).2.length
            = 0 := by
          rw [pairsOfCodes_getD _ j (by rw [hXlen]; omega), hzero]
        rw [hlen, hlenj] at hpos
        omega
      · have hj1 : j = 1 := by omega
        have hi0 : i = 0 := by omega
        subst hj1; subst hi0
        have h0 : ((pairsOfCodes (((List.replicate freqs.length
            (⟨0, 0⟩ : HuffmanCode)).set 0 ⟨0, 1⟩).set 1 ⟨1, 1⟩)).getD 0 defPair)
            = (0, ⟨0, 1⟩) := by
          rw [pairsOfCodes_getD _ 0 (by rw [hXlen]; omega),
            getD_set_ne _ _ _ (by omega), getD_set_self _ _ _ _ (by simp; omega)]
          decide
        have h1 : ((pairsOfCodes (((List.replicate freqs.length
            (⟨0, 0⟩ : HuffmanCode)).set 0 ⟨0, 1⟩).set 1 ⟨1, 1⟩)).getD 1 defPair)
            = (1, ⟨1, 1⟩) := by
          rw [pairsOfCodes_getD _ 1 (by rw [hXlen]; omega),
            getD_set_self _ _ _ _ (by simp; omega)]
          decide
        rw [h0, h1]
        decide
    · rw [huffman_build_codes_pairs, if_neg hv, if_pos hc0, if_neg hn] at h
      obtain rfl := Option.some_inj.mp h
      rw [pairsOfCodes_length] at hj
      have : freqs.length = 1 := by
        have : freqs.length ≠ 0 := by tauto
        omega
      simp only [List.length_set, List.length_replicate] at hj
      omega
  by_cases hc1 : freqs.countP (fun f => decide (0 < f)) = 1
  · exact absurd hc1 hnot1
  rw [huffman_build_codes_pairs, if_neg hv, if_neg hc0, if_neg hc1] at h
  dsimp only at h
  obtain rfl := Option.some_inj.mp h
  rw [huffmanCodesFromLengths] at hj hlen hpos ⊢
  have hmb15 : mb ≤ 15 := by omega
  have hmb1 : 1 ≤ mb := by omega
  generalize hL1 : (reassignLengths mb (List.countP (fun f => decide (0 < f)) freqs)
      freqs.length (buildTreeNodes (leavesOf freqs 0)
        (List.countP (fun f => decide (0 < f)) freqs))
      (rebalance mb (countsOf mb (initialLengths freqs.length mb
          (List.countP (fun f => decide (0 < f)) freqs)
          (buildTreeNodes (leavesOf freqs 0) (List.countP (fun f => decide (0 < f)) freqs))))
        (usedOf mb (countsOf mb (initialLengths freqs.length mb
          (List.countP (fun f => decide (0 < f)) freqs)
          (buildTreeNodes (leavesOf freqs 0)
            (List.countP (fun f => decide (0 < f)) freqs)))))).1).1 = L1
    at hj hlen hpos ⊢
  have hbmb : ∀ x ∈ L1, x ≤ mb := by
    rw [← hL1]
    exact reassignLengths_bounded _ _ _ _ _
  have hb15 : ∀ x ∈ L1, x ≤ 15 := fun x hx => le_trans (hbmb x hx) hmb15
  have hK : kraftNum mb L1 ≤ 2 ^ mb := by
    rw [← hL1]
    exact pipeline_kraftNum_le mb hmb1 hmb15 _ _ _ hcnt
  have hcnt1 : L1.countP (fun x => decide (0 < x)) ≤ 2 ^ 15 := by
    have h1 := countP_le_kraftNum mb L1 hbmb
    have h2 : (2:ℕ) ^ mb ≤ 2 ^ 15 := Nat.pow_le_pow_right (by norm_num) hmb15
    omega
  obtain ⟨g1, g2, g3, g4⟩ := bl_countOf_spec mb hmb15 L1 hbmb hcnt1
  have hW : usedPure 15 (bl_countOf L1) ≤ 2 ^ 15 := by
    rw [g4, kraftNum_fifteen mb hmb15 L1 hbmb]
    have hmul : (2:ℕ) ^ (15 - mb) * kraftNum mb L1 ≤ 2 ^ (15 - mb) * 2 ^ mb :=
      Nat.mul_le_mul_left _ hK
    have hpow : (2:ℕ) ^ (15 - mb) * 2 ^ mb = 2 ^ 15 := by
      rw [← pow_add]
      congr 1
      omega
    omega
  have hnc := next_codeOf_spec (bl_countOf L1) hW g2
  have hinv : ncInv (next_codeOf (bl_countOf L1)) L1 := by
    intro b hb1 hb15'
    have h1 := hnc b hb1 hb15'
    have h2 := g3 b hb1 hb15'
    have h3 : (2:ℕ) ^ b ≤ 2 ^ 15 := Nat.pow_le_pow_right (by norm_num) hb15'
    omega
  rw [assignCodesAux_length] at hj
  rw [assignCodesAux_getD_length _ _ i (by omega), assignCodesAux_getD_length _ _ j hj]
    at hlen
  rw [assignCodesAux_getD_length _ _ i (by omega)] at hpos
  exact assignCodesAux_strict_mono _ _ i j hb15 (next_codeOf_length _) hinv hij hj hlen hpos

/-- Witness for C5 at `[5,1,1,1]`, `max_bits = 15` (symbols 1 and 2
share length 3 with pre-reversal values 6 and 7). -/
theorem c5_witness :
    huffman_build_codes_pairs [5, 1, 1, 1] 15
      = some [(0, ⟨0, 1⟩), (6, ⟨3, 3⟩), (7, ⟨7, 3⟩), (2, ⟨1, 2⟩)] ∧
    ([5, 1, 1, 1] : List ℕ).countP (fun f => decide (0 < f)) ≠ 1 ∧
    ([5, 1, 1, 1] : List ℕ).countP (fun f => decide (0 < f)) ≤ 2 ^ 15 ∧
    (([(0, ⟨0, 1⟩), (6, ⟨3, 3⟩), (7, ⟨7, 3⟩), (2, ⟨1, 2⟩)] :
      List (ℕ × HuffmanCode)).getD 1 defPair).1
      < (([(0, ⟨0, 1⟩), (6, ⟨3, 3⟩), (7, ⟨7, 3⟩), (2, ⟨1, 2⟩)] :
        List (ℕ × HuffmanCode)).getD 2 defPair).1 := by
  refine ⟨by decide, by decide, by decide, ?_⟩
  exact c5_canonical_increasing [5, 1, 1, 1] 15 _ (by decide) (by decide) (by decide) 1 2
    (by decide) (by decide) (by decide) (by decide)

/-! ## huffman_encode_dynamic_header (src/c/huffman.c lines 401-543)

All data that the C writes (HLIT/HDIST/HCLEN, the code-length code
lengths, the RLE stream) is computed before the first
`bit_writer_write` call, so the write phase is modelled as a fold of
`bit_writer_write` over the list of `(value, bit_width)` fields, with
the same early-error behaviour. -/

/-- HLIT/HDIST trim loops (huffman.c lines 418-426):
`while (n > lo && codes[n-1].length == 0) n--`. -/
def trimLoop (codes : List HuffmanCode) (lo : ℕ) : ℕ → ℕ
  | 0 => 0
  | n + 1 =>
    if lo < n + 1 ∧ (codes.getD n ⟨0, 0⟩).length = 0 then trimLoop codes lo n
    else n + 1

/-- `hlit` computation: trim 286 down to at least 257. -/
def hlitOf (lit : List HuffmanCode) : ℕ :=
  trimLoop lit 257 286

/-- `hdist` computation: trim 30 down to at least 1. -/
def hdistOf (dist : List HuffmanCode) : ℕ :=
  trimLoop dist 1 30

/-- The fixed code-length transmission order (huffman.c lines 470-472). -/
def code_length_order : List ℕ :=
  [16, 17, 18, 0, 8, 7, 9, 6, 10, 5, 11, 4, 12, 3, 13, 2, 14, 1, 15]

/-- HCLEN trim loop (huffman.c lines 474-477):
`while (hclen > 4 && cl_codes[order[hclen-1]].length == 0) hclen--`. -/
def trimOrderLoop (cl_codes : List HuffmanCode) : ℕ → ℕ
  | 0 => 0
  | n + 1 =>
    if 4 < n + 1 ∧ (cl_codes.getD (code_length_order.getD n 0) ⟨0, 0⟩).length = 0 then
      trimOrderLoop cl_codes n
    else n + 1

/-- `hclen` computation. -/
def hclenOf (cl_codes : List HuffmanCode) : ℕ :=
  trimOrderLoop cl_codes 19

/-- The combined length array (huffman.c lines 429-439): the first
`hlit` literal/length code lengths followed by the first `hdist`
distance code lengths. -/
def allLengthsOf (lit dist : List HuffmanCode) (hlit hdist : ℕ) : List ℕ :=
  (List.range hlit).map (fun i => (lit.getD i ⟨0, 0⟩).length)
    ++ (List.range hdist).map (fun i => (dist.getD i ⟨0, 0⟩).length)

/-- Frequency table of the code-length alphabet over the RLE stream
(huffman.c lines 457-460). -/
def clFreqOf (rle : List (ℕ × ℕ)) : List ℕ :=
  rle.foldl (fun freq se => freq.set se.1 (freq.getD se.1 0 + 1)) (List.replicate 19 0)

/-- The fields written for one RLE entry (huffman.c lines 498-528):
the symbol's code-length-alphabet code, then the extra bits for
symbols 16/17/18. -/
def rleFieldOf (cl_codes : List HuffmanCode) (se : ℕ × ℕ) : List (ℕ × ℕ) :=
  ((cl_codes.getD se.1 ⟨0, 0⟩).code, (cl_codes.getD se.1 ⟨0, 0⟩).length) ::
    (if se.1 = 16 then [(se.2, 2)]
     else if se.1 = 17 then [(se.2, 3)]
     else if se.1 = 18 then [(se.2, 7)]
     else [])

/-- The complete sequence of `(value, bit_width)` fields of the dynamic
header, in emission order (huffman.c lines 480-528). -/
def headerFields (hlit hdist hclen : ℕ) (cl_codes : List HuffmanCode)
    (rle : List (ℕ × ℕ)) : List (ℕ × ℕ) :=
  (hlit - 257, 5) :: (hdist - 1, 5) :: (hclen - 4, 4) ::
    ((List.range hclen).map
        (fun i => ((cl_codes.getD (code_length_order.getD i 0) ⟨0, 0⟩).length, 3))
      ++ rle.flatMap (rleFieldOf cl_codes))

/-- `huffman_encode_dynamic_header(lit, dist, output, output_size, ...)`
from huffman.c.  Returns `(buffer bytes, bytes_written, bits_in_last_byte)`
on success, `none` on error. -/
def huffman_encode_dynamic_header (lit dist : List HuffmanCode) (output_size : ℕ) :
    Option (List ℕ × ℕ × ℕ) :=
  let hlit := hlitOf lit
  let hdist := hdistOf dist
  let rle := rle_encode_lengths (allLengthsOf lit dist hlit hdist)
  match huffman_build_codes (clFreqOf rle) 7 with
  | none => none
  | some cl_codes =>
    let hclen := hclenOf cl_codes
    match (headerFields hlit hdist hclen cl_codes rle).foldl
        (fun st f => match st with
          | none => none
          | some bw => bit_writer_write bw f.1 f.2)
        (some (bit_writer_init output_size)) with
    | none => none
    | some bw =>
      let bits_last := bw.bit_count
      let bw2 := if 0 < bw.bit_count then bit_writer_finish bw else bw
      some (bw2.bytes, bw2.bytes.length, bits_last)

theorem trimLoop_eq_lo (codes : List HuffmanCode) (lo : ℕ) :
    ∀ n, lo ≤ n → (∀ i, i < n → lo ≤ i → (codes.getD i ⟨0, 0⟩).length = 0) →
      trimLoop codes lo n = lo := by
  intro n
  induction n with
  | zero =>
    intro h _
    simp only [trimLoop]
    omega
  | succ n ih =>
    intro hle hz
    by_cases hlt : lo < n + 1
    · simp only [trimLoop, if_pos (And.intro hlt (hz n (by omega) (by omega)))]
      exact ih (by omega) (fun i hi hloi => hz i (by omega) hloi)
    · simp only [trimLoop, if_neg (by rintro ⟨ha, _⟩; exact hlt ha :
        ¬(lo < n + 1 ∧ (codes.getD n ⟨0, 0⟩).length = 0))]
      omega

theorem trimOrderLoop_ge_4 (cl_codes : List HuffmanCode) :
    ∀ n, 4 ≤ n → 4 ≤ trimOrderLoop cl_codes n := by
  intro n
  induction n with
  | zero => intro h; omega
  | succ n ih =>
    intro h
    simp only [trimOrderLoop]
    split
    · rename_i hguard
      exact ih (by omega)
    · omega

/-- C6: with literal/length codes all unused beyond index 257 and
distance codes all unused beyond index 1, the header encoder computes
`HLIT = 257` and `HDIST = 1`, the first three emitted fields are
`0` (5 bits), `0` (5 bits) and `HCLEN - 4` (4 bits), and `HCLEN` is at
least 4 even when the tail of the fixed transmission order is all
zero-length. -/
theorem c6_header_fields (lit dist : List HuffmanCode)
    (hlit0 : ∀ i, i < 286 → 257 ≤ i → (lit.getD i ⟨0, 0⟩).length = 0)
    (hdist0 : ∀ i, i < 30 → 1 ≤ i → (dist.getD i ⟨0, 0⟩).length = 0) :
    hlitOf lit = 257 ∧ hdistOf dist = 1 ∧
    ∀ cl_codes, huffman_build_codes (clFreqOf (rle_encode_lengths
        (allLengthsOf lit dist (hlitOf lit) (hdistOf dist)))) 7 = some cl_codes →
      4 ≤ hclenOf cl_codes ∧
      (headerFields (hlitOf lit) (hdistOf dist) (hclenOf cl_codes) cl_codes
          (rle_encode_lengths (allLengthsOf lit dist (hlitOf lit) (hdistOf dist)))).take 3
        = [(0, 5), (0, 5), (hclenOf cl_codes - 4, 4)] := by
  have h1 : hlitOf lit = 257 :=
    trimLoop_eq_lo lit 257 286 (by omega) (fun i hi hlo => hlit0 i hi hlo)
  have h2 : hdistOf dist = 1 :=
    trimLoop_eq_lo dist 1 30 (by omega) (fun i hi hlo => hdist0 i hi hlo)
  refine ⟨h1, h2, ?_⟩
  intro cl_codes _
  refine ⟨trimOrderLoop_ge_4 cl_codes 19 (by omega), ?_⟩
  rw [h1, h2]
  simp [headerFields]

set_option maxRecDepth 100000 in
/-- Witness for C6 at all-zero code tables. -/
theorem c6_witness :
    (∀ i, i < 286 → 257 ≤ i →
      ((List.replicate 286 (⟨0, 0⟩ : HuffmanCode)).getD i ⟨0, 0⟩).length = 0) ∧
    (∀ i, i < 30 → 1 ≤ i →
      ((List.replicate 30 (⟨0, 0⟩ : HuffmanCode)).getD i ⟨0, 0⟩).length = 0) ∧
    hlitOf (List.replicate 286 ⟨0, 0⟩) = 257 ∧
    hdistOf (List.replicate 30 ⟨0, 0⟩) = 1 := by
  refine ⟨by decide, by decide, ?_, ?_⟩
  · exact (c6_header_fields (List.replicate 286 ⟨0, 0⟩) (List.replicate 30 ⟨0, 0⟩)
      (by decide) (by decide)).1
  · exact (c6_header_fields (List.replicate 286 ⟨0, 0⟩) (List.replicate 30 ⟨0, 0⟩)
      (by decide) (by decide)).2.1

set_option maxRecDepth 100000 in
/-- C3 evidence: a full dynamic header for all-zero code tables needs
42 bits (6 bytes, the last one partial).  With a 5-byte destination the
encoder nevertheless returns success: `bit_writer_finish` silently
drops the trailing partial byte (`bits_in_last_byte = 2`), writing a
truncated header instead of failing with BufferOverflow.  (A 0-byte
destination does fail.) -/
theorem c3_silent_truncation :
    (huffman_encode_dynamic_header (List.replicate 286 ⟨0, 0⟩)
        (List.replicate 30 ⟨0, 0⟩) 5).map Prod.snd = some (5, 2) ∧
    (huffman_encode_dynamic_header (List.replicate 286 ⟨0, 0⟩)
        (List.replicate 30 ⟨0, 0⟩) 6).map Prod.snd = some (6, 2) ∧
    (huffman_encode_dynamic_header (List.replicate 286 ⟨0, 0⟩)
        (List.replicate 30 ⟨0, 0⟩) 0).isSome = false := by
  refine ⟨by decide, by decide, by decide⟩

end Zarc
